import Mathlib

/-!
# Verification of `jundo` (`Lib/jundo/undoManager.py`)

A shallow embedding of the undo/redo engine of the `jundo` package: the
`Change`/`ChangeSet` representation, the nested-path query/update primitives
(`getNestedItem`, `addNestedItem`, `replaceNestedItem`, `removeNestedItem`
and the per-container `addItem`/`replaceItem`/`removeItem` specializers),
the proxy mutation algorithms (`_genericSetItem`, `_genericDelItem`,
`UndoProxySequence.insert`, `UndoProxySet.add`/`discard`) and the
`UndoManager` state machine (`newChangeSet`, `pushCurrentChangeSet`,
`rollbackCurrentChangeSet`, `undo`, `redo`, the `changeSet` context manager).

Modelling conventions:

* Model objects are JSON-like trees (`JValue`): atoms (ints and strings,
  the Python types registered as atomic), `None`, sequences, mappings /
  attribute objects, and sets.  Attribute objects behave exactly like
  string-keyed mappings through the `hasattr`/`getattr`/`setattr`/`delattr`
  specializers, so `JValue.map` represents both.
* Python mutates containers in place through aliases obtained by path
  navigation; the functional rendering replaces the sub-tree at the path
  (`setNested`).  This is faithful for tree-shaped models navigated by
  ephemeral proxies, which is the documented usage discipline.
* Python `dict` and `set` equality is order-insensitive, so mappings and
  sets are represented canonically: association lists strictly sorted by
  key, and strictly sorted element lists.  With this representation Lean
  equality of `JValue` coincides with Python `==` on the modelled states.
  The well-formedness predicate `WF` states that every mapping/set in a
  tree is in canonical form.
* A raised Python exception is rendered as an error value; state-returning
  operations return the post-exception state alongside the error, since in
  Python the mutations performed before a raise persist.
-/

set_option maxHeartbeats 1000000

namespace Jundo

/-- Atomic leaf values and path elements: Python ints and strings (the
types registered via `registerUndoProxy(int, _UndoProxy_atomic)` etc.).
Path elements in recorded changes are dict keys / attribute names
(strings), sequence indices (ints) or set members (atoms). -/
inductive Atom where
  | int (n : Int)
  | str (s : String)
  deriving DecidableEq, Repr

/-- Strict ordering on atoms used for the canonical (sorted) representation
of Python dicts and sets: ints before strings, each ordered naturally. -/
def Atom.blt : Atom → Atom → Bool
  | .int a, .int b => decide (a < b)
  | .int _, .str _ => true
  | .str _, .int _ => false
  | .str a, .str b => decide (a < b)

theorem Atom.blt_irrefl (a : Atom) : a.blt a = false := by
  cases a <;> simp [Atom.blt]

theorem Atom.blt_asymm {a b : Atom} (h : a.blt b = true) : b.blt a = false := by
  cases a <;> cases b <;>
    simp only [Atom.blt, decide_eq_true_eq, decide_eq_false_iff_not] at h ⊢
  · omega
  · simp at h
  · exact lt_asymm h

theorem Atom.blt_trans {a b c : Atom} (h₁ : a.blt b = true) (h₂ : b.blt c = true) :
    a.blt c = true := by
  cases a <;> cases b <;> cases c <;>
    simp only [Atom.blt, decide_eq_true_eq] at h₁ h₂ ⊢ <;> try trivial
  · omega
  · exact lt_trans h₁ h₂

theorem Atom.eq_of_not_blt {a b : Atom} (h₁ : a.blt b = false) (h₂ : b.blt a = false) :
    a = b := by
  cases a <;> cases b <;>
    simp only [Atom.blt, decide_eq_false_iff_not, Atom.int.injEq, Atom.str.injEq] at h₁ h₂ ⊢ <;>
    try trivial
  · omega
  · exact le_antisymm (not_lt.mp h₂) (not_lt.mp h₁)

/-- JSON-like model values.  `null` is Python `None` (it occurs as the
`value` payload of `remove` changes and of set-membership changes). -/
inductive JValue where
  | atom (a : Atom)
  | null
  | seq (xs : List JValue)
  | map (kvs : List (Atom × JValue))
  | jset (vs : List Atom)

/-- A path into the model tree, as in the recorded `Change.path` tuples:
outermost element first.  The empty path is the root object. -/
abbrev JPath := List Atom

namespace JValue

mutual

/-- Decidable equality of model values. -/
def beq : JValue → JValue → Bool
  | .atom a, .atom b => a = b
  | .null, .null => true
  | .seq xs, .seq ys => beqList xs ys
  | .map kvs, .map lvs => beqPairs kvs lvs
  | .jset vs, .jset ws => vs = ws
  | _, _ => false

def beqList : List JValue → List JValue → Bool
  | [], [] => true
  | x :: xs, y :: ys => beq x y && beqList xs ys
  | _, _ => false

def beqPairs : List (Atom × JValue) → List (Atom × JValue) → Bool
  | [], [] => true
  | (k, x) :: xs, (l, y) :: ys => k = l && beq x y && beqPairs xs ys
  | _, _ => false

end

mutual

theorem beq_refl : (v : JValue) → beq v v = true
  | .atom a => by simp [beq]
  | .null => by simp [beq]
  | .seq xs => by simp [beq, beqList_refl xs]
  | .map kvs => by simp [beq, beqPairs_refl kvs]
  | .jset vs => by simp [beq]

theorem beqList_refl : (xs : List JValue) → beqList xs xs = true
  | [] => by simp [beqList]
  | x :: xs => by simp [beqList, beq_refl x, beqList_refl xs]

theorem beqPairs_refl : (kvs : List (Atom × JValue)) → beqPairs kvs kvs = true
  | [] => by simp [beqPairs]
  | (k, x) :: xs => by simp [beqPairs, beq_refl x, beqPairs_refl xs]

end

mutual

theorem eq_of_beq : {v w : JValue} → beq v w = true → v = w
  | .atom a, .atom b, h => by simp [beq] at h; simp [h]
  | .null, .null, _ => rfl
  | .seq xs, .seq ys, h => by
      simp only [beq] at h; rw [eqList_of_beqList h]
  | .map kvs, .map lvs, h => by
      simp only [beq] at h; rw [eqPairs_of_beqPairs h]
  | .jset vs, .jset ws, h => by simp [beq] at h; simp [h]
  | .atom _, .null, h => by simp [beq] at h
  | .atom _, .seq _, h => by simp [beq] at h
  | .atom _, .map _, h => by simp [beq] at h
  | .atom _, .jset _, h => by simp [beq] at h
  | .null, .atom _, h => by simp [beq] at h
  | .null, .seq _, h => by simp [beq] at h
  | .null, .map _, h => by simp [beq] at h
  | .null, .jset _, h => by simp [beq] at h
  | .seq _, .atom _, h => by simp [beq] at h
  | .seq _, .null, h => by simp [beq] at h
  | .seq _, .map _, h => by simp [beq] at h
  | .seq _, .jset _, h => by simp [beq] at h
  | .map _, .atom _, h => by simp [beq] at h
  | .map _, .null, h => by simp [beq] at h
  | .map _, .seq _, h => by simp [beq] at h
  | .map _, .jset _, h => by simp [beq] at h
  | .jset _, .atom _, h => by simp [beq] at h
  | .jset _, .null, h => by simp [beq] at h
  | .jset _, .seq _, h => by simp [beq] at h
  | .jset _, .map _, h => by simp [beq] at h

theorem eqList_of_beqList : {xs ys : List JValue} → beqList xs ys = true → xs = ys
  | [], [], _ => rfl
  | x :: xs, y :: ys, h => by
      simp only [beqList, Bool.and_eq_true] at h
      rw [eq_of_beq h.1, eqList_of_beqList h.2]
  | [], _ :: _, h => by simp [beqList] at h
  | _ :: _, [], h => by simp [beqList] at h

theorem eqPairs_of_beqPairs : {xs ys : List (Atom × JValue)} → beqPairs xs ys = true → xs = ys
  | [], [], _ => rfl
  | (k, x) :: xs, (l, y) :: ys, h => by
      simp only [beqPairs, Bool.and_eq_true, decide_eq_true_eq] at h
      rw [h.1.1, eq_of_beq h.1.2, eqPairs_of_beqPairs h.2]
  | [], _ :: _, h => by simp [beqPairs] at h
  | _ :: _, [], h => by simp [beqPairs] at h

end

instance : DecidableEq JValue := fun v w =>
  if h : beq v w = true then .isTrue (eq_of_beq h)
  else .isFalse (fun he => h (he ▸ beq_refl v))

end JValue

/-! ## Sequence primitives

Python list subscripting (`operator.getitem`/`setitem`/`delitem`) resolves a
negative index by adding the length and then requires `0 <= index < len`;
`list.insert` instead clamps the resolved position into `[0, len]`. -/

/-- Resolve a Python sequence subscript: negative counts from the end, out of
range is an `IndexError` (`None` here).  With `bias = 0` this is also exactly
`UndoProxySequence._normalizeIndex(index)`; with `bias = 1` it is
`_normalizeIndex(index, bias=1)` as used by `insert`. -/
def normIdx (i : Int) (len : Nat) (bias : Nat) : Option Nat :=
  let j := if i < 0 then i + len else i
  if 0 ≤ j ∧ j < len + bias then some j.toNat else none

/-- The position at which Python `list.insert` places a new item: negative
counts from the end, then clamped into `[0, len]`. -/
def pyInsertPos (i : Int) (len : Nat) : Nat :=
  let j := if i < 0 then i + len else i
  if j ≤ 0 then 0 else if j ≥ len then len else j.toNat

/-- Insert an item at a position (callers pass a position `≤` the length;
beyond the end this appends, like Python `list.insert`). -/
def listIns {α : Type} : Nat → α → List α → List α
  | 0, v, xs => v :: xs
  | _ + 1, v, [] => [v]
  | n + 1, v, x :: xs => x :: listIns n v xs

/-- Remove the item at a position (callers pass a position `<` the length). -/
def listDel {α : Type} : Nat → List α → List α
  | _, [] => []
  | 0, _ :: xs => xs
  | n + 1, x :: xs => x :: listDel n xs

theorem listDel_listIns {α : Type} (v : α) :
    ∀ (j : Nat) (xs : List α), j ≤ xs.length → listDel j (listIns j v xs) = xs
  | 0, [], _ => rfl
  | 0, _ :: _, _ => rfl
  | _ + 1, x :: xs, h => by
      simp only [listIns, listDel, List.cons.injEq, true_and]
      exact listDel_listIns v _ xs (by simpa using h)

theorem listIns_listDel {α : Type} :
    ∀ (j : Nat) (xs : List α) (a : α), xs[j]? = some a → listIns j a (listDel j xs) = xs
  | 0, x :: xs, a, h => by simp_all [listIns, listDel]
  | j + 1, x :: xs, a, h => by
      simp only [listDel, listIns, List.cons.injEq, true_and]
      exact listIns_listDel j xs a (by simpa using h)

theorem length_listIns {α : Type} (v : α) :
    ∀ (j : Nat) (xs : List α), (listIns j v xs).length = xs.length + 1
  | 0, [] => rfl
  | 0, _ :: _ => rfl
  | _ + 1, [] => rfl
  | j + 1, x :: xs => by simp [listIns, length_listIns v j xs]

theorem mem_listIns {α : Type} {v x : α} :
    ∀ {j : Nat} {xs : List α}, x ∈ listIns j v xs → x = v ∨ x ∈ xs := by
  intro j
  induction j with
  | zero => intro xs h; cases xs <;> simpa [listIns] using h
  | succ n ih =>
      intro xs h
      cases xs with
      | nil => simpa [listIns] using h
      | cons y ys =>
          simp only [listIns, List.mem_cons] at h
          rcases h with h | h
          · exact Or.inr (by simp [h])
          · rcases ih h with h | h
            · exact Or.inl h
            · exact Or.inr (List.mem_cons_of_mem _ h)

theorem mem_listDel {α : Type} {x : α} :
    ∀ {j : Nat} {xs : List α}, x ∈ listDel j xs → x ∈ xs := by
  intro j
  induction j with
  | zero => intro xs h; cases xs <;> simp_all [listDel]
  | succ n ih =>
      intro xs h
      cases xs with
      | nil => simp [listDel] at h
      | cons y ys =>
          simp only [listDel, List.mem_cons] at h ⊢
          exact h.imp id ih

theorem set_self_of_getElem? {α : Type} :
    ∀ {xs : List α} {j : Nat} {a : α}, xs[j]? = some a → xs.set j a = xs := by
  intro xs
  induction xs with
  | nil => intro j a h; simp at h
  | cons x xs ih =>
      intro j a h
      cases j with
      | zero => simp_all
      | succ n => simp_all [List.set]

/-- Payload position of `pyInsertPos` for an in-range nonnegative index: no
clamping happens. -/
theorem pyInsertPos_of_le {j len : Nat} (h : j ≤ len) : pyInsertPos j len = j := by
  unfold pyInsertPos
  simp only []
  have h0 : ¬ ((j : Int) < 0) := by omega
  rw [if_neg h0]
  by_cases hz : (j : Int) ≤ 0
  · have : j = 0 := by omega
    simp [this]
  · rw [if_neg hz]
    by_cases hl : (j : Int) ≥ len
    · have : j = len := by omega
      simp [this, hl]
    · rw [if_neg hl]
      simp

/-! ## Set primitives

A Python `set` is unordered and compared extensionally, so it is represented
canonically as a strictly `Atom.blt`-sorted list of members.  `insertA`
renders `set.add` (of an absent member), `removeA` renders `set.remove` /
`set.discard` (of a present member; `none` is the `KeyError` of `remove`). -/

/-- Strictly sorted (hence duplicate-free) list of atoms. -/
def chainA : List Atom → Bool
  | [] => true
  | [_] => true
  | a :: b :: rest => a.blt b && chainA (b :: rest)

/-- `set.add` on the canonical representation: insert at the sorted
position. -/
def insertA (a : Atom) : List Atom → List Atom
  | [] => [a]
  | b :: rest => if a.blt b then a :: b :: rest else b :: insertA a rest

/-- `set.remove` / the present-member branch of `set.discard`: `none` is
Python's `KeyError` for an absent member. -/
def removeA (a : Atom) : List Atom → Option (List Atom)
  | [] => none
  | b :: rest => if a = b then some rest else (removeA a rest).map (b :: ·)

theorem chainA_cons {a : Atom} {l : List Atom} (h : chainA (a :: l) = true) :
    chainA l = true := by
  cases l with
  | nil => rfl
  | cons b rest => simp only [chainA, Bool.and_eq_true] at h; exact h.2

theorem chainA_blt_of_mem {a b : Atom} :
    ∀ {l : List Atom}, chainA (a :: l) = true → b ∈ l → a.blt b = true := by
  intro l
  induction l generalizing a with
  | nil => intro _ h; simp at h
  | cons c rest ih =>
      intro hc hm
      simp only [chainA, Bool.and_eq_true] at hc
      rcases List.mem_cons.mp hm with h | h
      · exact h ▸ hc.1
      · exact Atom.blt_trans hc.1 (ih hc.2 h)

theorem not_mem_of_chainA {a : Atom} {l : List Atom} (h : chainA (a :: l) = true) :
    a ∉ l := fun hm => by
  have := chainA_blt_of_mem h hm
  rw [Atom.blt_irrefl] at this
  exact Bool.false_ne_true this

theorem removeA_cons_eq_some {a b : Atom} {rest l' : List Atom}
    (h : removeA a (b :: rest) = some l') :
    (a = b ∧ l' = rest) ∨
      (a ≠ b ∧ ∃ rest', removeA a rest = some rest' ∧ l' = b :: rest') := by
  by_cases he : a = b
  · simp only [removeA, if_pos he, Option.some.injEq] at h
    exact Or.inl ⟨he, h.symm⟩
  · simp only [removeA, if_neg he] at h
    cases hr : removeA a rest with
    | none => rw [hr] at h; simp at h
    | some rest' =>
        rw [hr, Option.map_some'] at h
        exact Or.inr ⟨he, rest', rfl, (Option.some.injEq _ _ ▸ h).symm⟩

theorem removeA_insertA {a : Atom} :
    ∀ {l : List Atom}, a ∉ l → removeA a (insertA a l) = some l := by
  intro l
  induction l with
  | nil => intro _; simp [insertA, removeA]
  | cons b rest ih =>
      intro hm
      simp only [List.mem_cons, not_or] at hm
      by_cases hblt : a.blt b = true
      · simp [insertA, hblt, removeA]
      · simp [insertA, hblt, removeA, hm.1, ih hm.2]

theorem removeA_none_of_not_mem {a : Atom} :
    ∀ {l : List Atom}, a ∉ l → removeA a l = none := by
  intro l
  induction l with
  | nil => intro _; rfl
  | cons b rest ih =>
      intro hm
      simp only [List.mem_cons, not_or] at hm
      simp [removeA, hm.1, ih hm.2]

theorem removeA_isSome_of_mem {a : Atom} :
    ∀ {l : List Atom}, a ∈ l → (removeA a l).isSome = true := by
  intro l
  induction l with
  | nil => intro h; simp at h
  | cons b rest ih =>
      intro hm
      by_cases he : a = b
      · simp [removeA, he]
      · rcases List.mem_cons.mp hm with h | h
        · exact absurd h he
        · have hs := ih h
          simp only [removeA, if_neg he]
          cases hr : removeA a rest with
          | none => rw [hr] at hs; simp at hs
          | some _ => simp

theorem insertA_removeA {a : Atom} :
    ∀ {l l' : List Atom}, chainA l = true → removeA a l = some l' →
      insertA a l' = l := by
  intro l
  induction l with
  | nil => intro l' _ h; simp [removeA] at h
  | cons b rest ih =>
      intro l' hc h
      rcases removeA_cons_eq_some h with ⟨he, hl⟩ | ⟨he, rest', hr, hl⟩
      · subst he hl
        cases l' with
        | nil => rfl
        | cons c rest' =>
            have : a.blt c = true := chainA_blt_of_mem hc (List.mem_cons_self c rest')
            simp [insertA, this]
      · subst hl
        have hmem : a ∈ rest := by
          by_contra hnm
          rw [removeA_none_of_not_mem hnm] at hr
          exact Option.noConfusion hr
        have hblt : b.blt a = true := chainA_blt_of_mem hc hmem
        have hab : a.blt b = false := Atom.blt_asymm hblt
        simp only [insertA, hab, Bool.false_eq_true, if_false, List.cons.injEq, true_and]
        exact ih (chainA_cons hc) hr

theorem mem_insertA {x a : Atom} :
    ∀ {l : List Atom}, x ∈ insertA a l → x = a ∨ x ∈ l := by
  intro l
  induction l with
  | nil => intro h; simpa [insertA] using h
  | cons b rest ih =>
      intro h
      by_cases hblt : a.blt b = true
      · simpa [insertA, hblt] using h
      · simp only [insertA, hblt, Bool.false_eq_true, if_false, List.mem_cons] at h
        rcases h with h | h
        · exact Or.inr (by simp [h])
        · exact (ih h).imp id (List.mem_cons_of_mem b)

theorem mem_of_mem_removeA {x a : Atom} :
    ∀ {l l' : List Atom}, removeA a l = some l' → x ∈ l' → x ∈ l := by
  intro l
  induction l with
  | nil => intro l' h; simp [removeA] at h
  | cons b rest ih =>
      intro l' h hm
      rcases removeA_cons_eq_some h with ⟨he, hl⟩ | ⟨he, rest', hr, hl⟩
      · exact List.mem_cons_of_mem b (hl ▸ hm)
      · subst hl
        rcases List.mem_cons.mp hm with h' | h'
        · simp [h']
        · exact List.mem_cons_of_mem b (ih hr h')

theorem chainA_insertA {a : Atom} :
    ∀ {l : List Atom}, chainA l = true → a ∉ l → chainA (insertA a l) = true := by
  intro l
  induction l with
  | nil => intro _ _; rfl
  | cons b rest ih =>
      intro hc hm
      simp only [List.mem_cons, not_or] at hm
      by_cases hblt : a.blt b = true
      · simp only [insertA, hblt, if_true]
        show (a.blt b && chainA (b :: rest)) = true
        simp [hblt, hc]
      · have hba : b.blt a = true := by
          cases h2 : b.blt a
          · exact absurd (Atom.eq_of_not_blt (Bool.of_not_eq_true hblt) h2) hm.1
          · rfl
        simp only [insertA, hblt, Bool.false_eq_true, if_false]
        cases rest with
        | nil => simp [insertA, chainA, hba]
        | cons c rest' =>
            simp only [chainA, Bool.and_eq_true] at hc
            have htail := ih hc.2 hm.2
            by_cases hac : a.blt c = true
            · simp only [insertA, hac, if_true] at htail ⊢
              show (b.blt a && chainA (a :: c :: rest')) = true
              simp [hba, htail]
            · simp only [insertA, hac, Bool.false_eq_true, if_false] at htail ⊢
              show (b.blt c && chainA (c :: insertA a rest')) = true
              simp [hc.1, htail]

theorem chainA_removeA {a : Atom} :
    ∀ {l l' : List Atom}, chainA l = true → removeA a l = some l' →
      chainA l' = true := by
  intro l
  induction l with
  | nil => intro l' _ h; simp [removeA] at h
  | cons b rest ih =>
      intro l' hc h
      rcases removeA_cons_eq_some h with ⟨he, hl⟩ | ⟨he, rest', hr, hl⟩
      · exact hl ▸ chainA_cons hc
      · subst hl
        have htail := ih (chainA_cons hc) hr
        cases rest' with
        | nil => rfl
        | cons c rest'' =>
            show (b.blt c && chainA (c :: rest'')) = true
            have hbc : b.blt c = true :=
              chainA_blt_of_mem hc (mem_of_mem_removeA hr (List.mem_cons_self c rest''))
            simp [hbc, htail]

theorem not_mem_removeA {a : Atom} {l l' : List Atom}
    (hc : chainA l = true) (h : removeA a l = some l') : a ∉ l' := by
  intro hm
  induction l generalizing l' with
  | nil => simp [removeA] at h
  | cons b rest ih =>
      rcases removeA_cons_eq_some h with ⟨he, hl⟩ | ⟨he, rest', hr, hl⟩
      · subst he
        exact not_mem_of_chainA hc (hl ▸ hm)
      · subst hl
        rcases List.mem_cons.mp hm with h' | h'
        · exact he h'
        · exact ih (chainA_cons hc) hr h'

/-! ## Mapping primitives

A Python `dict` (and equally an attribute object's `__dict__`) compares
order-insensitively, so it is represented canonically as an association list
strictly sorted by key.  `lookupA` renders `model[key]` lookup / `contains`,
`replaceV` renders `model[key] = value` for an existing key, `insertP`
renders it for a new key (`UndoProxyMapping.modelAddItem`), and `removeK`
renders `del model[key]` (`none` is the `KeyError`). -/

def lookupA (k : Atom) : List (Atom × JValue) → Option JValue
  | [] => none
  | (k', v) :: rest => if k = k' then some v else lookupA k rest

def replaceV (k : Atom) (v : JValue) : List (Atom × JValue) → List (Atom × JValue)
  | [] => []
  | (k', v') :: rest => if k = k' then (k', v) :: rest else (k', v') :: replaceV k v rest

def removeK (k : Atom) : List (Atom × JValue) → Option (List (Atom × JValue))
  | [] => none
  | (k', v') :: rest => if k = k' then some rest else (removeK k rest).map ((k', v') :: ·)

def insertP (k : Atom) (v : JValue) : List (Atom × JValue) → List (Atom × JValue)
  | [] => [(k, v)]
  | (k', v') :: rest =>
      if k.blt k' then (k, v) :: (k', v') :: rest else (k', v') :: insertP k v rest

/-- Canonical form of a mapping: keys strictly sorted. -/
def chainK (kvs : List (Atom × JValue)) : Bool := chainA (kvs.map Prod.fst)

theorem keys_replaceV (k : Atom) (v : JValue) :
    ∀ kvs : List (Atom × JValue), (replaceV k v kvs).map Prod.fst = kvs.map Prod.fst := by
  intro kvs
  induction kvs with
  | nil => rfl
  | cons p rest ih =>
      obtain ⟨k', v'⟩ := p
      by_cases he : k = k' <;> simp [replaceV, he, ih]

theorem keys_insertP (k : Atom) (v : JValue) :
    ∀ kvs : List (Atom × JValue),
      (insertP k v kvs).map Prod.fst = insertA k (kvs.map Prod.fst) := by
  intro kvs
  induction kvs with
  | nil => rfl
  | cons p rest ih =>
      obtain ⟨k', v'⟩ := p
      by_cases hblt : k.blt k' = true <;> simp [insertP, insertA, hblt, ih]

theorem keys_removeK {k : Atom} :
    ∀ {kvs kvs' : List (Atom × JValue)}, removeK k kvs = some kvs' →
      removeA k (kvs.map Prod.fst) = some (kvs'.map Prod.fst) := by
  intro kvs
  induction kvs with
  | nil => intro kvs' h; simp [removeK] at h
  | cons p rest ih =>
      obtain ⟨k', v'⟩ := p
      intro kvs' h
      by_cases he : k = k'
      · simp only [removeK, if_pos he, Option.some.injEq] at h
        simp [removeA, he, h]
      · simp only [removeK, if_neg he] at h
        cases hr : removeK k rest with
        | none => rw [hr] at h; simp at h
        | some rest' =>
            rw [hr, Option.map_some'] at h
            obtain rfl := (Option.some.injEq _ _ ▸ h).symm
            simp [removeA, he, ih hr]

theorem lookupA_isSome_iff_mem_keys {k : Atom} :
    ∀ {kvs : List (Atom × JValue)},
      (lookupA k kvs).isSome = true ↔ k ∈ kvs.map Prod.fst := by
  intro kvs
  induction kvs with
  | nil => simp [lookupA]
  | cons p rest ih =>
      obtain ⟨k', v'⟩ := p
      by_cases he : k = k' <;> simp [lookupA, he, ih]

theorem lookupA_none_iff_not_mem_keys {k : Atom} {kvs : List (Atom × JValue)} :
    lookupA k kvs = none ↔ k ∉ kvs.map Prod.fst := by
  rw [← lookupA_isSome_iff_mem_keys]
  cases lookupA k kvs <;> simp

theorem removeK_insertP {k : Atom} {v : JValue} :
    ∀ {kvs : List (Atom × JValue)}, lookupA k kvs = none →
      removeK k (insertP k v kvs) = some kvs := by
  intro kvs
  induction kvs with
  | nil => intro _; simp [insertP, removeK]
  | cons p rest ih =>
      obtain ⟨k', v'⟩ := p
      intro hl
      simp only [lookupA] at hl
      by_cases he : k = k'
      · simp [he] at hl
      · rw [if_neg he] at hl
        by_cases hblt : k.blt k' = true
        · simp [insertP, hblt, removeK]
        · simp [insertP, hblt, removeK, he, ih hl]

theorem insertP_removeK {k : Atom} {v : JValue} :
    ∀ {kvs kvs' : List (Atom × JValue)}, chainK kvs = true →
      removeK k kvs = some kvs' → lookupA k kvs = some v →
      insertP k v kvs' = kvs := by
  intro kvs
  induction kvs with
  | nil => intro kvs' _ h; simp [removeK] at h
  | cons p rest ih =>
      obtain ⟨k', v'⟩ := p
      intro kvs' hc h hl
      by_cases he : k = k'
      · subst he
        simp only [removeK] at h
        simp only [lookupA] at hl
        rw [if_pos trivial] at h
        rw [if_pos trivial] at hl
        obtain rfl := (Option.some.injEq _ _ ▸ h).symm
        obtain rfl := (Option.some.injEq _ _ ▸ hl)
        have hc' : chainA (k :: kvs'.map Prod.fst) = true := by
          simpa [chainK] using hc
        obtain _ | ⟨⟨k'', v''⟩, rest'⟩ := kvs'
        · rfl
        · have hb : k.blt k'' = true := chainA_blt_of_mem hc' (by simp)
          simp [insertP, hb]
      · simp only [removeK, if_neg he] at h
        simp only [lookupA, if_neg he] at hl
        cases hr : removeK k rest with
        | none => rw [hr] at h; simp at h
        | some rest' =>
            rw [hr, Option.map_some'] at h
            obtain rfl := (Option.some.injEq _ _ ▸ h).symm
            have hmem : k ∈ rest.map Prod.fst :=
              lookupA_isSome_iff_mem_keys.mp (by simp [hl])
            have hblt : k'.blt k = true := chainA_blt_of_mem hc hmem
            have hkb : k.blt k' = false := Atom.blt_asymm hblt
            simp only [insertP, hkb, Bool.false_eq_true, if_false, List.cons.injEq, true_and]
            exact ih (chainA_cons hc) hr hl

theorem removeK_none_of_lookupA_none {k : Atom} :
    ∀ {kvs : List (Atom × JValue)}, lookupA k kvs = none → removeK k kvs = none := by
  intro kvs
  induction kvs with
  | nil => intro _; rfl
  | cons p rest ih =>
      obtain ⟨k', v'⟩ := p
      intro hl
      simp only [lookupA] at hl
      by_cases he : k = k'
      · simp [he] at hl
      · rw [if_neg he] at hl
        simp [removeK, he, ih hl]

theorem removeK_isSome_of_lookupA {k : Atom} :
    ∀ {kvs : List (Atom × JValue)} {v : JValue}, lookupA k kvs = some v →
      (removeK k kvs).isSome = true := by
  intro kvs
  induction kvs with
  | nil => intro v h; simp [lookupA] at h
  | cons p rest ih =>
      obtain ⟨k', v'⟩ := p
      intro v hl
      simp only [lookupA] at hl
      by_cases he : k = k'
      · simp [removeK, he]
      · rw [if_neg he] at hl
        have := ih hl
        simp only [removeK, if_neg he]
        cases hr : removeK k rest with
        | none => rw [hr] at this; simp at this
        | some _ => simp

theorem lookupA_none_removeK {k : Atom} {kvs kvs' : List (Atom × JValue)}
    (hc : chainK kvs = true) (h : removeK k kvs = some kvs') :
    lookupA k kvs' = none := by
  rw [lookupA_none_iff_not_mem_keys]
  exact not_mem_removeA hc (keys_removeK h)

theorem chainK_insertP {k : Atom} {v : JValue} {kvs : List (Atom × JValue)}
    (hc : chainK kvs = true) (hl : lookupA k kvs = none) :
    chainK (insertP k v kvs) = true := by
  unfold chainK
  rw [keys_insertP]
  exact chainA_insertA hc (lookupA_none_iff_not_mem_keys.mp hl)

theorem chainK_removeK {k : Atom} {kvs kvs' : List (Atom × JValue)}
    (hc : chainK kvs = true) (h : removeK k kvs = some kvs') :
    chainK kvs' = true :=
  chainA_removeA hc (keys_removeK h)

theorem chainK_replaceV {k : Atom} {v : JValue} {kvs : List (Atom × JValue)}
    (hc : chainK kvs = true) : chainK (replaceV k v kvs) = true := by
  unfold chainK
  rw [keys_replaceV]
  exact hc

theorem replaceV_lookupA_self {k : Atom} :
    ∀ {kvs : List (Atom × JValue)} {v : JValue}, lookupA k kvs = some v →
      replaceV k v kvs = kvs := by
  intro kvs
  induction kvs with
  | nil => intro v h; simp [lookupA] at h
  | cons p rest ih =>
      obtain ⟨k', v'⟩ := p
      intro v hl
      simp only [lookupA] at hl
      by_cases he : k = k'
      · rw [if_pos he] at hl
        obtain rfl := Option.some.injEq _ _ ▸ hl
        simp [replaceV, he]
      · rw [if_neg he] at hl
        simp [replaceV, he, ih hl]

theorem replaceV_replaceV {k : Atom} {v v' : JValue} :
    ∀ {kvs : List (Atom × JValue)},
      replaceV k v' (replaceV k v kvs) = replaceV k v' kvs := by
  intro kvs
  induction kvs with
  | nil => rfl
  | cons p rest ih =>
      obtain ⟨k', w⟩ := p
      by_cases he : k = k' <;> simp [replaceV, he, ih]

theorem lookupA_replaceV_self {k : Atom} {v : JValue} :
    ∀ {kvs : List (Atom × JValue)} {w : JValue}, lookupA k kvs = some w →
      lookupA k (replaceV k v kvs) = some v := by
  intro kvs
  induction kvs with
  | nil => intro w h; simp [lookupA] at h
  | cons p rest ih =>
      obtain ⟨k', w'⟩ := p
      intro w hl
      simp only [lookupA] at hl
      by_cases he : k = k'
      · simp [replaceV, he, lookupA]
      · rw [if_neg he] at hl
        simp [replaceV, he, lookupA, ih hl]

theorem mem_replaceV {k : Atom} {v : JValue} {p : Atom × JValue} :
    ∀ {kvs : List (Atom × JValue)}, p ∈ replaceV k v kvs →
      p ∈ kvs ∨ p.2 = v := by
  intro kvs
  induction kvs with
  | nil => intro h; simp [replaceV] at h
  | cons q rest ih =>
      obtain ⟨k', w⟩ := q
      intro h
      by_cases he : k = k'
      · simp only [replaceV, if_pos he, List.mem_cons] at h
        rcases h with h | h
        · exact Or.inr (by simp [h])
        · exact Or.inl (List.mem_cons_of_mem _ h)
      · simp only [replaceV, if_neg he, List.mem_cons] at h
        rcases h with h | h
        · exact Or.inl (by simp [h])
        · exact (ih h).imp (List.mem_cons_of_mem _) id

theorem mem_insertP {k : Atom} {v : JValue} {p : Atom × JValue} :
    ∀ {kvs : List (Atom × JValue)}, p ∈ insertP k v kvs →
      p ∈ kvs ∨ p = (k, v) := by
  intro kvs
  induction kvs with
  | nil => intro h; simp only [insertP] at h; exact Or.inr (by simpa using h)
  | cons q rest ih =>
      obtain ⟨k', w⟩ := q
      intro h
      by_cases hblt : k.blt k' = true
      · simp only [insertP, hblt, if_true, List.mem_cons] at h
        rcases h with h | h | h
        · exact Or.inr h
        · exact Or.inl (List.mem_cons.mpr (Or.inl h))
        · exact Or.inl (List.mem_cons_of_mem _ h)
      · simp only [insertP, hblt, Bool.false_eq_true, if_false, List.mem_cons] at h
        rcases h with h | h
        · exact Or.inl (by simp [h])
        · exact (ih h).imp (List.mem_cons_of_mem _) id

theorem mem_of_mem_removeK {k : Atom} {p : Atom × JValue} :
    ∀ {kvs kvs' : List (Atom × JValue)}, removeK k kvs = some kvs' →
      p ∈ kvs' → p ∈ kvs := by
  intro kvs
  induction kvs with
  | nil => intro kvs' h; simp [removeK] at h
  | cons q rest ih =>
      obtain ⟨k', w⟩ := q
      intro kvs' h hm
      by_cases he : k = k'
      · rw [removeK, if_pos he] at h
        obtain rfl := (Option.some.injEq _ _ ▸ h).symm
        exact List.mem_cons_of_mem _ hm
      · rw [removeK, if_neg he] at h
        cases hr : removeK k rest with
        | none => rw [hr] at h; simp at h
        | some rest' =>
            rw [hr, Option.map_some'] at h
            obtain rfl := (Option.some.injEq _ _ ▸ h).symm
            rcases List.mem_cons.mp hm with h' | h'
            · simp [h']
            · exact List.mem_cons_of_mem _ (ih hr h')

/-! ## Well-formed models

Canonical-form invariant of the representation: every mapping and every set
in the tree is strictly sorted.  (Python maintains this trivially, since
dicts and sets have no observable order; the invariant only constrains the
embedding's representation.) -/

mutual

def WF : JValue → Bool
  | .atom _ => true
  | .null => true
  | .seq xs => WFs xs
  | .map kvs => chainK kvs && WFps kvs
  | .jset vs => chainA vs

def WFs : List JValue → Bool
  | [] => true
  | x :: xs => WF x && WFs xs

def WFps : List (Atom × JValue) → Bool
  | [] => true
  | (_, v) :: kvs => WF v && WFps kvs

end

theorem WFs_iff {xs : List JValue} :
    WFs xs = true ↔ ∀ x ∈ xs, WF x = true := by
  induction xs with
  | nil => simp [WFs]
  | cons x xs ih => simp [WFs, ih]

theorem WFps_iff {kvs : List (Atom × JValue)} :
    WFps kvs = true ↔ ∀ p ∈ kvs, WF p.2 = true := by
  induction kvs with
  | nil => simp [WFps]
  | cons p kvs ih => obtain ⟨k, v⟩ := p; simp [WFps, ih]

/-! ## Nested path navigation and functional update

`getItemJ` is the type-dispatched `getItem` of the source
(`operator.getitem` for sequences and mappings, "not implemented" for sets,
and attribute access — which the JSON model does not navigate — for
atoms/None).  `getNested` is `getNestedItem`.  `setNested` is the
functional rendering of mutating, in place, the sub-object that
`getNestedItem` resolves: it rebuilds the spine of the tree above it. -/

def getItemJ : JValue → Atom → Option JValue
  | .seq xs, .int i => (normIdx i xs.length 0).bind fun j => xs[j]?
  | .map kvs, k => lookupA k kvs
  | _, _ => none

def getNested : JValue → JPath → Option JValue
  | m, [] => some m
  | m, e :: p => (getItemJ m e).bind (getNested · p)

def setNested : JValue → JPath → JValue → Option JValue
  | _, [], c => some c
  | .seq xs, .int i :: p, c =>
      (normIdx i xs.length 0).bind fun j =>
        xs[j]?.bind fun ch =>
          (setNested ch p c).map fun ch' => .seq (xs.set j ch')
  | .map kvs, k :: p, c =>
      (lookupA k kvs).bind fun ch =>
        (setNested ch p c).map fun ch' => .map (replaceV k ch' kvs)
  | _, _ :: _, _ => none

theorem normIdx_lt {i : Int} {len bias j : Nat} (h : normIdx i len bias = some j) :
    j < len + bias := by
  by_cases hneg : i < 0
  · simp only [normIdx, hneg, if_true] at h
    split at h
    · next hc => rw [Option.some.injEq] at h; omega
    · exact Option.noConfusion h
  · simp only [normIdx, hneg, if_false] at h
    split at h
    · next hc => rw [Option.some.injEq] at h; omega
    · exact Option.noConfusion h

theorem getElem?_lt {α : Type} {xs : List α} {j : Nat} {a : α}
    (h : xs[j]? = some a) : j < xs.length := by
  by_contra hn
  rw [List.getElem?_eq_none (by omega)] at h
  exact Option.noConfusion h

theorem getNested_of_setNested :
    ∀ {p : JPath} {m m' c : JValue}, setNested m p c = some m' →
      getNested m' p = some c := by
  intro p
  induction p with
  | nil =>
      intro m m' c h
      simp only [setNested, Option.some.injEq] at h
      subst h
      rfl
  | cons e p ih =>
      intro m m' c h
      match m, e with
      | .seq xs, .int i =>
          simp only [setNested, Option.bind_eq_bind, Option.bind_eq_some] at h
          obtain ⟨j, hj, ch, hch, h⟩ := h
          rw [Option.map_eq_some'] at h
          obtain ⟨ch', hch', rfl⟩ := h
          have hlt : j < xs.length := getElem?_lt hch
          have hlen : (xs.set j ch').length = xs.length := by simp
          simp only [getNested, getItemJ, hlen, hj, Option.bind_eq_bind,
            Option.some_bind]
          rw [List.getElem?_set_self (by omega)]
          simpa using ih hch'
      | .map kvs, k =>
          simp only [setNested, Option.bind_eq_bind, Option.bind_eq_some] at h
          obtain ⟨ch, hch, h⟩ := h
          rw [Option.map_eq_some'] at h
          obtain ⟨ch', hch', rfl⟩ := h
          simp only [getNested, getItemJ, Option.bind_eq_bind]
          rw [lookupA_replaceV_self hch]
          simpa using ih hch'
      | .seq xs, .str s => simp [setNested] at h
      | .atom a, _ => simp [setNested] at h
      | .null, _ => simp [setNested] at h
      | .jset vs, _ => simp [setNested] at h

theorem setNested_setNested :
    ∀ {p : JPath} {m m' c₁ : JValue}, setNested m p c₁ = some m' →
      ∀ c₂, setNested m' p c₂ = setNested m p c₂ := by
  intro p
  induction p with
  | nil => intro m m' c₁ _ c₂; simp [setNested]
  | cons e p ih =>
      intro m m' c₁ h c₂
      match m, e with
      | .seq xs, .int i =>
          simp only [setNested, Option.bind_eq_bind, Option.bind_eq_some] at h
          obtain ⟨j, hj, ch, hch, h⟩ := h
          rw [Option.map_eq_some'] at h
          obtain ⟨ch', hch', rfl⟩ := h
          have hlt : j < xs.length := getElem?_lt hch
          have hlen : (xs.set j ch').length = xs.length := by simp
          simp only [setNested, hlen, hj, Option.bind_eq_bind, Option.some_bind]
          rw [List.getElem?_set_self (by omega)]
          simp only [Option.some_bind]
          rw [ih hch', hch]
          simp only [Option.some_bind]
          cases setNested ch p c₂ with
          | none => simp
          | some ch'' => simp [List.set_set]
      | .map kvs, k =>
          simp only [setNested, Option.bind_eq_bind, Option.bind_eq_some] at h
          obtain ⟨ch, hch, h⟩ := h
          rw [Option.map_eq_some'] at h
          obtain ⟨ch', hch', rfl⟩ := h
          simp only [setNested, Option.bind_eq_bind]
          rw [lookupA_replaceV_self hch, hch]
          simp only [Option.some_bind]
          rw [ih hch']
          cases setNested ch p c₂ with
          | none => simp
          | some ch'' => simp [replaceV_replaceV]
      | .seq xs, .str s => simp [setNested] at h
      | .atom a, _ => simp [setNested] at h
      | .null, _ => simp [setNested] at h
      | .jset vs, _ => simp [setNested] at h

theorem setNested_getNested_self :
    ∀ {p : JPath} {m c : JValue}, getNested m p = some c →
      setNested m p c = some m := by
  intro p
  induction p with
  | nil =>
      intro m c h
      simp only [getNested, Option.some.injEq] at h
      subst h
      simp [setNested]
  | cons e p ih =>
      intro m c h
      simp only [getNested, Option.bind_eq_bind, Option.bind_eq_some] at h
      obtain ⟨ch, hch, hrest⟩ := h
      match m, e with
      | .seq xs, .int i =>
          simp only [getItemJ, Option.bind_eq_bind, Option.bind_eq_some] at hch
          obtain ⟨j, hj, hche⟩ := hch
          simp only [setNested, hj, Option.bind_eq_bind, Option.some_bind, hche]
          rw [ih hrest]
          simp [set_self_of_getElem? hche]
      | .map kvs, k =>
          simp only [getItemJ] at hch
          simp only [setNested, hch, Option.bind_eq_bind, Option.some_bind]
          rw [ih hrest]
          simp [replaceV_lookupA_self hch]
      | .seq xs, .str s => simp [getItemJ] at hch
      | .atom a, _ => simp [getItemJ] at hch
      | .null, _ => simp [getItemJ] at hch
      | .jset vs, _ => simp [getItemJ] at hch

theorem setNested_isSome_of_getNested :
    ∀ {p : JPath} {m c₀ : JValue}, getNested m p = some c₀ →
      ∀ c, (setNested m p c).isSome = true := by
  intro p
  induction p with
  | nil => intro m c₀ _ c; simp [setNested]
  | cons e p ih =>
      intro m c₀ h c
      simp only [getNested, Option.bind_eq_bind, Option.bind_eq_some] at h
      obtain ⟨ch, hch, hrest⟩ := h
      match m, e with
      | .seq xs, .int i =>
          simp only [getItemJ, Option.bind_eq_bind, Option.bind_eq_some] at hch
          obtain ⟨j, hj, hche⟩ := hch
          simp only [setNested, hj, Option.bind_eq_bind, Option.some_bind, hche]
          have := ih hrest c
          cases hs : setNested ch p c with
          | none => rw [hs] at this; simp at this
          | some ch' => simp
      | .map kvs, k =>
          simp only [getItemJ] at hch
          simp only [setNested, hch, Option.bind_eq_bind, Option.some_bind]
          have := ih hrest c
          cases hs : setNested ch p c with
          | none => rw [hs] at this; simp at this
          | some ch' => simp
      | .seq xs, .str s => simp [getItemJ] at hch
      | .atom a, _ => simp [getItemJ] at hch
      | .null, _ => simp [getItemJ] at hch
      | .jset vs, _ => simp [getItemJ] at hch

theorem WF_getNested :
    ∀ {p : JPath} {m c : JValue}, getNested m p = some c → WF m = true →
      WF c = true := by
  intro p
  induction p with
  | nil =>
      intro m c h hm
      simp only [getNested, Option.some.injEq] at h
      exact h ▸ hm
  | cons e p ih =>
      intro m c h hm
      simp only [getNested, Option.bind_eq_bind, Option.bind_eq_some] at h
      obtain ⟨ch, hch, hrest⟩ := h
      refine ih hrest ?_
      match m, e with
      | .seq xs, .int i =>
          simp only [getItemJ, Option.bind_eq_bind, Option.bind_eq_some] at hch
          obtain ⟨j, hj, hche⟩ := hch
          simp only [WF] at hm
          exact WFs_iff.mp hm ch (List.getElem?_mem hche)
      | .map kvs, k =>
          simp only [getItemJ] at hch
          simp only [WF, Bool.and_eq_true] at hm
          have hmem : (k, ch) ∈ kvs ∨ ch ∈ [] := by
            left
            clear ih hm
            induction kvs with
            | nil => simp [lookupA] at hch
            | cons q rest ihq =>
                obtain ⟨k', v'⟩ := q
                simp only [lookupA] at hch
                by_cases he : k = k'
                · rw [if_pos he] at hch
                  obtain rfl := Option.some.injEq _ _ ▸ hch
                  simp [he]
                · rw [if_neg he] at hch
                  exact List.mem_cons_of_mem _ (ihq hch)
          rcases hmem with hmem | hmem
          · exact WFps_iff.mp hm.2 (k, ch) hmem
          · simp at hmem
      | .seq xs, .str s => simp [getItemJ] at hch
      | .atom a, _ => simp [getItemJ] at hch
      | .null, _ => simp [getItemJ] at hch
      | .jset vs, _ => simp [getItemJ] at hch

theorem WF_setNested :
    ∀ {p : JPath} {m m' c : JValue}, setNested m p c = some m' →
      WF m = true → WF c = true → WF m' = true := by
  intro p
  induction p with
  | nil =>
      intro m m' c h hm hcw
      simp only [setNested, Option.some.injEq] at h
      exact h ▸ hcw
  | cons e p ih =>
      intro m m' c h hm hcw
      match m, e with
      | .seq xs, .int i =>
          simp only [setNested, Option.bind_eq_bind, Option.bind_eq_some] at h
          obtain ⟨j, hj, ch, hch, h⟩ := h
          rw [Option.map_eq_some'] at h
          obtain ⟨ch', hch', rfl⟩ := h
          simp only [WF] at hm ⊢
          have hchW : WF ch = true := WFs_iff.mp hm ch (List.getElem?_mem hch)
          have hch'W : WF ch' = true := ih hch' hchW hcw
          refine WFs_iff.mpr ?_
          intro x hx
          rcases List.mem_or_eq_of_mem_set hx with hx | hx
          · exact WFs_iff.mp hm x hx
          · exact hx ▸ hch'W
      | .map kvs, k =>
          simp only [setNested, Option.bind_eq_bind, Option.bind_eq_some] at h
          obtain ⟨ch, hch, h⟩ := h
          rw [Option.map_eq_some'] at h
          obtain ⟨ch', hch', rfl⟩ := h
          simp only [WF, Bool.and_eq_true] at hm ⊢
          have hchW : WF ch = true := by
            have hmem : (k, ch) ∈ kvs := by
              clear ih hm
              induction kvs with
              | nil => simp [lookupA] at hch
              | cons q rest ihq =>
                  obtain ⟨k', v'⟩ := q
                  simp only [lookupA] at hch
                  by_cases he : k = k'
                  · rw [if_pos he] at hch
                    obtain rfl := Option.some.injEq _ _ ▸ hch
                    simp [he]
                  · rw [if_neg he] at hch
                    exact List.mem_cons_of_mem _ (ihq hch)
            exact WFps_iff.mp hm.2 (k, ch) hmem
          have hch'W : WF ch' = true := ih hch' hchW hcw
          refine ⟨chainK_replaceV hm.1, WFps_iff.mpr ?_⟩
          intro q hq
          rcases mem_replaceV hq with hq | hq
          · exact WFps_iff.mp hm.2 q hq
          · exact hq ▸ hch'W
      | .seq xs, .str s => simp [setNested] at h
      | .atom a, _ => simp [setNested] at h
      | .null, _ => simp [setNested] at h
      | .jset vs, _ => simp [setNested] at h

/-! ## Changes and change sets -/

/-- A change delta (the `Change` dataclass): `op` is one of `"add"`,
`"replace"`, `"remove"`; `path` locates the target; `value` is the payload
(`null` renders the Python `None` carried by `remove` and set-membership
changes). -/
structure Change where
  op : String
  path : JPath
  value : JValue
  deriving DecidableEq

/-- The `addItem` specializers: `list.insert` for sequences (clamping, via
`pyInsertPos`), mapping/attribute add (`assert key not in model` then
append - canonically, sorted insert), set add (`assert` atomic membership
type - always true for `Atom` - and `assert value not in model`).  The
default attribute specializer on an atomic value or `None` raises. -/
def addItemJ (last : Atom) (value : JValue) : JValue → Option JValue
  | .seq xs =>
      match last with
      | .int i => some (.seq (listIns (pyInsertPos i xs.length) value xs))
      | .str _ => none
  | .map kvs =>
      if lookupA last kvs = none then some (.map (insertP last value kvs)) else none
  | .jset vs => if last ∈ vs then none else some (.jset (insertA last vs))
  | _ => none

/-- The `replaceItem` specializers: sequence `setitem` (negative resolved,
out of range raises), mapping/attribute replace (`assert key in model`),
`assert 0` for sets. -/
def replaceItemJ (last : Atom) (value : JValue) : JValue → Option JValue
  | .seq xs =>
      match last with
      | .int i => (normIdx i xs.length 0).map fun j => JValue.seq (xs.set j value)
      | .str _ => none
  | .map kvs =>
      if (lookupA last kvs).isSome then some (.map (replaceV last value kvs)) else none
  | _ => none

/-- The `removeItem` specializers: sequence `delitem`, mapping/attribute
delete (`KeyError`/`AttributeError` when absent), `set.remove`
(`KeyError` when absent). -/
def removeItemJ (last : Atom) : JValue → Option JValue
  | .seq xs =>
      match last with
      | .int i => (normIdx i xs.length 0).map fun j => JValue.seq (listDel j xs)
      | .str _ => none
  | .map kvs => (removeK last kvs).map .map
  | .jset vs => (removeA last vs).map .jset
  | _ => none

/-- Primitive dispatch of `Change.applyChange` on the `op` string; an
unrecognized op hits `assert 0`. -/
def applyOp (op : String) (last : Atom) (value : JValue) (parent : JValue) :
    Option JValue :=
  if op = "add" then addItemJ last value parent
  else if op = "replace" then replaceItemJ last value parent
  else if op = "remove" then removeItemJ last parent
  else none

/-- `Change.applyChange(model)`: resolve `path[:-1]` (`getNestedItem`),
apply the primitive at `path[-1]`, and - functionally - write the mutated
parent container back along the spine.  An empty path raises
(`path[-1]` is an `IndexError` on an empty tuple). -/
def Change.applyChange (c : Change) (m : JValue) : Option JValue :=
  match c.path.getLast? with
  | none => none
  | some last =>
      (getNested m c.path.dropLast).bind fun parent =>
        (applyOp c.op last c.value parent).bind fun parent' =>
          setNested m c.path.dropLast parent'

/-- `ChangeSet.applyChanges` body: apply changes in order, stopping at the
first failure; the model keeps the mutations applied before the failure,
as the Python loop would. -/
def applyList : List Change → JValue → JValue × Bool
  | [], m => (m, true)
  | c :: cs, m =>
      match c.applyChange m with
      | some m' => applyList cs m'
      | none => (m, false)

/-- `ChangeSet` and its subclass `InverseChangeSet`, distinguished by the
`isInverse` tag: an inverse change set replays its changes in reverse
order. -/
structure ChangeSet where
  isInverse : Bool
  changes : List Change
  deriving DecidableEq

def ChangeSet.isEmpty (cs : ChangeSet) : Bool := cs.changes.isEmpty

def ChangeSet.addChange (cs : ChangeSet) (c : Change) : ChangeSet :=
  { cs with changes := cs.changes ++ [c] }

def ChangeSet.applyChanges (cs : ChangeSet) (m : JValue) : JValue × Bool :=
  applyList (if cs.isInverse then cs.changes.reverse else cs.changes) m

theorem applyList_append (l₁ l₂ : List Change) (m : JValue) :
    applyList (l₁ ++ l₂) m =
      (let r := applyList l₁ m
       if r.2 then applyList l₂ r.1 else r) := by
  induction l₁ generalizing m with
  | nil => simp [applyList]
  | cons c cs ih =>
      simp only [List.cons_append, applyList]
      cases c.applyChange m with
      | none => simp [applyList]
      | some m' => simp [ih m']

/-! ## Proxy mutations

A mutation made through a proxy for the container at path `p`.  The five
mutating entry points of the proxy layer: `__setitem__`/`__setattr__`
(`_genericSetItem`), `__delitem__`/`__delattr__` (`_genericDelItem`),
`UndoProxySequence.insert`, `UndoProxySet.add` and `UndoProxySet.discard`.
Attribute proxies are string-keyed item access, rendered by the mapping
case. -/
inductive MutOp where
  | setItem (p : JPath) (key : Atom) (value : JValue)
  | delItem (p : JPath) (key : Atom)
  | insert (p : JPath) (index : Int) (value : JValue)
  | setAdd (p : JPath) (member : Atom)
  | setDiscard (p : JPath) (member : Atom)
  deriving DecidableEq

/-- The payload written by a mutation is itself a well-formed value. -/
def MutOp.WFv : MutOp → Bool
  | .setItem _ _ v => WF v
  | .insert _ _ v => WF v
  | _ => true

/-- `_genericSetItem` on the wrapped container: for a sequence,
`_normalizeIndex` then always the replace branch (`modelHasItem` asserts
the index is in range); for a mapping, replace when the key is present,
else the add branch - whose `assert not isinstance(key, int)` makes an
absent integer key fail.  Returns the mutated container and the recorded
`(change, invChange)` pair. -/
def proxySetItem (cont : JValue) (p : JPath) (key : Atom) (v : JValue) :
    Option (JValue × Change × Change) :=
  match cont, key with
  | .seq xs, .int i =>
      (normIdx i xs.length 0).bind fun j =>
        xs[j]?.map fun old =>
          (JValue.seq (xs.set j v),
           ⟨"replace", p ++ [.int (j : Int)], v⟩,
           ⟨"replace", p ++ [.int (j : Int)], old⟩)
  | .seq _, .str _ => none
  | .map kvs, k =>
      match lookupA k kvs with
      | some old =>
          some (JValue.map (replaceV k v kvs),
            ⟨"replace", p ++ [k], v⟩, ⟨"replace", p ++ [k], old⟩)
      | none =>
          match k with
          | .int _ => none
          | .str _ =>
              some (JValue.map (insertP k v kvs),
                ⟨"add", p ++ [k], v⟩, ⟨"remove", p ++ [k], .null⟩)
  | _, _ => none

/-- `_genericDelItem`: read the old value (raising if absent), record
`remove` with inverse `add`, then delete. -/
def proxyDelItem (cont : JValue) (p : JPath) (key : Atom) :
    Option (JValue × Change × Change) :=
  match cont, key with
  | .seq xs, .int i =>
      (normIdx i xs.length 0).bind fun j =>
        xs[j]?.map fun old =>
          (JValue.seq (listDel j xs),
           ⟨"remove", p ++ [.int (j : Int)], .null⟩,
           ⟨"add", p ++ [.int (j : Int)], old⟩)
  | .seq _, .str _ => none
  | .map kvs, k =>
      (lookupA k kvs).bind fun old =>
        (removeK k kvs).map fun kvs' =>
          (JValue.map kvs',
           ⟨"remove", p ++ [k], .null⟩, ⟨"add", p ++ [k], old⟩)
  | _, _ => none

/-- `UndoProxySequence.insert`: `_normalizeIndex(index, bias=1)` (raising
`IndexError` outside `[-len, len]`), record `add` with inverse `remove`,
then `list.insert`. -/
def proxyInsert (cont : JValue) (p : JPath) (i : Int) (v : JValue) :
    Option (JValue × Change × Change) :=
  match cont with
  | .seq xs =>
      (normIdx i xs.length 1).map fun j =>
        (JValue.seq (listIns j v xs),
         ⟨"add", p ++ [.int (j : Int)], v⟩,
         ⟨"remove", p ++ [.int (j : Int)], .null⟩)
  | _ => none

/-- `UndoProxySet.add`: an already-present member returns before anything
is recorded ("nothing to do or to undo"); otherwise record `add` with
inverse `remove` and add the member. -/
def proxySetAdd (cont : JValue) (p : JPath) (a : Atom) :
    Option (JValue × Option (Change × Change)) :=
  match cont with
  | .jset vs =>
      if a ∈ vs then some (JValue.jset vs, none)
      else some (JValue.jset (insertA a vs),
        some (⟨"add", p ++ [a], .null⟩, ⟨"remove", p ++ [a], .null⟩))
  | _ => none

/-- `UndoProxySet.discard`: an absent member returns before anything is
recorded; otherwise record `remove` with inverse `add` and discard the
member. -/
def proxySetDiscard (cont : JValue) (p : JPath) (a : Atom) :
    Option (JValue × Option (Change × Change)) :=
  match cont with
  | .jset vs =>
      if a ∈ vs then
        (removeA a vs).map fun vs' =>
          (JValue.jset vs',
           some (⟨"remove", p ++ [a], .null⟩, ⟨"add", p ++ [a], .null⟩))
      else some (JValue.jset vs, none)
  | _ => none

/-- Run a proxy mutation against the model tree: navigate to the wrapped
container, perform the proxy algorithm, write the mutated container back.
`none` means the call raised before mutating (bad index, missing key,
wrong container type); `some (m', none)` is a successful no-op
(`set.add`/`discard`); `some (m', some (ch, inv))` mutated the model and
recorded the pair. -/
def applyProxyOp (m : JValue) : MutOp → Option (JValue × Option (Change × Change))
  | .setItem p key v =>
      (getNested m p).bind fun cont =>
        (proxySetItem cont p key v).bind fun r =>
          (setNested m p r.1).map fun m' => (m', some r.2)
  | .delItem p key =>
      (getNested m p).bind fun cont =>
        (proxyDelItem cont p key).bind fun r =>
          (setNested m p r.1).map fun m' => (m', some r.2)
  | .insert p i v =>
      (getNested m p).bind fun cont =>
        (proxyInsert cont p i v).bind fun r =>
          (setNested m p r.1).map fun m' => (m', some r.2)
  | .setAdd p a =>
      (getNested m p).bind fun cont =>
        (proxySetAdd cont p a).bind fun r =>
          (setNested m p r.1).map fun m' => (m', r.2)
  | .setDiscard p a =>
      (getNested m p).bind fun cont =>
        (proxySetDiscard cont p a).bind fun r =>
          (setNested m p r.1).map fun m' => (m', r.2)

/-! ## The recorded pair inverts the mutation

For every mutation the proxy layer performs, the recorded forward change
replays the mutation and the recorded inverse change undoes it - locally on
the wrapped container, and, lifted through the spine, on the whole tree. -/

/-- The recorded pair `(ch, inv)` of a proxy mutation taking the wrapped
container `cont` to `c'`: both address a child of `p`, `ch` replays the
mutation, `inv` undoes it. -/
def LocalInv (cont c' : JValue) (p : JPath) (ch inv : Change) : Prop :=
  ∃ last, ch.path = p ++ [last] ∧ inv.path = p ++ [last] ∧
    applyOp ch.op last ch.value cont = some c' ∧
    applyOp inv.op last inv.value c' = some cont

theorem applyChange_of_localInv {m m' cont c' : JValue} {p : JPath} {ch inv : Change}
    (hg : getNested m p = some cont) (hs : setNested m p c' = some m')
    (hli : LocalInv cont c' p ch inv) :
    ch.applyChange m = some m' ∧ inv.applyChange m' = some m := by
  obtain ⟨last, hchp, hinvp, hfwd, hbwd⟩ := hli
  constructor
  · unfold Change.applyChange
    rw [hchp, List.getLast?_concat, List.dropLast_concat]
    simp [hg, hfwd, hs]
  · unfold Change.applyChange
    rw [hinvp, List.getLast?_concat, List.dropLast_concat]
    have hg' : getNested m' p = some c' := getNested_of_setNested hs
    simp only [hg', Option.bind_eq_bind, Option.some_bind, hbwd]
    rw [setNested_setNested hs]
    exact setNested_getNested_self hg

theorem normIdx_coe {j len : Nat} (h : j < len) : normIdx (j : Int) len 0 = some j := by
  unfold normIdx
  have h0 : ¬ ((j : Int) < 0) := by omega
  rw [if_neg h0]
  rw [if_pos (by constructor <;> omega)]
  simp

theorem WFs_set {xs : List JValue} {j : Nat} {v : JValue}
    (hxs : WFs xs = true) (hv : WF v = true) : WFs (xs.set j v) = true := by
  refine WFs_iff.mpr fun x hx => ?_
  rcases List.mem_or_eq_of_mem_set hx with hx | hx
  · exact WFs_iff.mp hxs x hx
  · exact hx ▸ hv

theorem WFs_listIns {xs : List JValue} {j : Nat} {v : JValue}
    (hxs : WFs xs = true) (hv : WF v = true) : WFs (listIns j v xs) = true := by
  refine WFs_iff.mpr fun x hx => ?_
  rcases mem_listIns hx with hx | hx
  · exact hx ▸ hv
  · exact WFs_iff.mp hxs x hx

theorem WFs_listDel {xs : List JValue} {j : Nat}
    (hxs : WFs xs = true) : WFs (listDel j xs) = true :=
  WFs_iff.mpr fun x hx => WFs_iff.mp hxs x (mem_listDel hx)

theorem proxySetItem_spec {cont c' : JValue} {p : JPath} {key : Atom} {v : JValue}
    {ch inv : Change} (hWF : WF cont = true) (hv : WF v = true)
    (h : proxySetItem cont p key v = some (c', ch, inv)) :
    LocalInv cont c' p ch inv ∧ WF c' = true := by
  match cont, key with
  | .seq xs, .int i =>
      simp only [proxySetItem, Option.bind_eq_bind, Option.bind_eq_some] at h
      obtain ⟨j, hj, h⟩ := h
      rw [Option.map_eq_some'] at h
      obtain ⟨old, hold, h⟩ := h
      simp only [Prod.mk.injEq] at h
      obtain ⟨rfl, rfl, rfl⟩ := h
      have hlt : j < xs.length := by have := normIdx_lt hj; omega
      refine ⟨⟨.int (j : Int), rfl, rfl, ?_, ?_⟩, ?_⟩
      · simp [applyOp, replaceItemJ, normIdx_coe hlt]
      · have hlen : (xs.set j v).length = xs.length := by simp
        simp only [applyOp, replaceItemJ, String.reduceEq, if_false, reduceIte, hlen,
          normIdx_coe hlt, Option.map_some', Option.some.injEq]
        rw [List.set_set, set_self_of_getElem? hold]
      · simp only [WF] at hWF ⊢
        exact WFs_set hWF hv
  | .seq xs, .str st => simp [proxySetItem] at h
  | .map kvs, k =>
      simp only [proxySetItem] at h
      cases hlk : lookupA k kvs with
      | some old =>
          rw [hlk] at h
          simp only [Option.some.injEq, Prod.mk.injEq] at h
          obtain ⟨rfl, rfl, rfl⟩ := h
          simp only [WF, Bool.and_eq_true] at hWF
          refine ⟨⟨k, rfl, rfl, ?_, ?_⟩, ?_⟩
          · simp [applyOp, replaceItemJ, hlk]
          · simp only [applyOp, replaceItemJ, String.reduceEq, if_false, reduceIte,
              lookupA_replaceV_self (v := v) hlk, Option.isSome_some, if_true,
              Option.some.injEq]
            rw [replaceV_replaceV, replaceV_lookupA_self hlk]
          · simp only [WF, Bool.and_eq_true]
            refine ⟨chainK_replaceV hWF.1, WFps_iff.mpr fun q hq => ?_⟩
            rcases mem_replaceV hq with hq | hq
            · exact WFps_iff.mp hWF.2 q hq
            · exact hq ▸ hv
      | none =>
          rw [hlk] at h
          match k with
          | .int n => simp at h
          | .str st =>
              simp only [Option.some.injEq, Prod.mk.injEq] at h
              obtain ⟨rfl, rfl, rfl⟩ := h
              simp only [WF, Bool.and_eq_true] at hWF
              refine ⟨⟨.str st, rfl, rfl, ?_, ?_⟩, ?_⟩
              · simp [applyOp, addItemJ, hlk]
              · simp only [applyOp, removeItemJ, String.reduceEq, if_false, reduceIte,
                  removeK_insertP hlk, Option.map_some', Option.some.injEq]
              · simp only [WF, Bool.and_eq_true]
                refine ⟨chainK_insertP hWF.1 hlk, WFps_iff.mpr fun q hq => ?_⟩
                rcases mem_insertP hq with hq | hq
                · exact WFps_iff.mp hWF.2 q hq
                · exact hq ▸ hv
  | .atom a, _ => simp [proxySetItem] at h
  | .null, _ => simp [proxySetItem] at h
  | .jset vs, _ => simp [proxySetItem] at h

theorem length_listDel {α : Type} :
    ∀ {j : Nat} {xs : List α}, j < xs.length →
      (listDel j xs).length = xs.length - 1 := by
  intro j
  induction j with
  | zero => intro xs h; cases xs <;> simp_all [listDel]
  | succ n ih =>
      intro xs h
      cases xs with
      | nil => simp at h
      | cons x xs =>
          simp only [listDel, List.length_cons]
          rw [ih (by simpa using h)]
          simp only [List.length_cons] at h
          omega

theorem proxyDelItem_spec {cont c' : JValue} {p : JPath} {key : Atom}
    {ch inv : Change} (hWF : WF cont = true)
    (h : proxyDelItem cont p key = some (c', ch, inv)) :
    LocalInv cont c' p ch inv ∧ WF c' = true := by
  match cont, key with
  | .seq xs, .int i =>
      simp only [proxyDelItem, Option.bind_eq_bind, Option.bind_eq_some] at h
      obtain ⟨j, hj, h⟩ := h
      rw [Option.map_eq_some'] at h
      obtain ⟨old, hold, h⟩ := h
      simp only [Prod.mk.injEq] at h
      obtain ⟨rfl, rfl, rfl⟩ := h
      have hlt : j < xs.length := by have := normIdx_lt hj; omega
      refine ⟨⟨.int (j : Int), rfl, rfl, ?_, ?_⟩, ?_⟩
      · simp [applyOp, removeItemJ, normIdx_coe hlt]
      · have hle : j ≤ (listDel j xs).length := by
          rw [length_listDel hlt]; omega
        simp only [applyOp, addItemJ, String.reduceEq, if_false, reduceIte,
          Option.some.injEq]
        rw [pyInsertPos_of_le hle, listIns_listDel j xs old hold]
      · simp only [WF] at hWF ⊢
        exact WFs_listDel hWF
  | .seq xs, .str st => simp [proxyDelItem] at h
  | .map kvs, k =>
      simp only [proxyDelItem, Option.bind_eq_bind, Option.bind_eq_some] at h
      obtain ⟨old, hlk, h⟩ := h
      rw [Option.map_eq_some'] at h
      obtain ⟨kvs', hrk, h⟩ := h
      simp only [Prod.mk.injEq] at h
      obtain ⟨rfl, rfl, rfl⟩ := h
      simp only [WF, Bool.and_eq_true] at hWF
      refine ⟨⟨k, rfl, rfl, ?_, ?_⟩, ?_⟩
      · simp [applyOp, removeItemJ, hrk]
      · simp only [applyOp, addItemJ, String.reduceEq, if_false, reduceIte]
        rw [if_pos (lookupA_none_removeK hWF.1 hrk)]
        rw [insertP_removeK hWF.1 hrk hlk]
      · simp only [WF, Bool.and_eq_true]
        refine ⟨chainK_removeK hWF.1 hrk, WFps_iff.mpr fun q hq => ?_⟩
        exact WFps_iff.mp hWF.2 q (mem_of_mem_removeK hrk hq)
  | .atom a, _ => simp [proxyDelItem] at h
  | .null, _ => simp [proxyDelItem] at h
  | .jset vs, _ => simp [proxyDelItem] at h

theorem proxyInsert_spec {cont c' : JValue} {p : JPath} {i : Int} {v : JValue}
    {ch inv : Change} (hWF : WF cont = true) (hv : WF v = true)
    (h : proxyInsert cont p i v = some (c', ch, inv)) :
    LocalInv cont c' p ch inv ∧ WF c' = true := by
  match cont with
  | .seq xs =>
      simp only [proxyInsert] at h
      rw [Option.map_eq_some'] at h
      obtain ⟨j, hj, h⟩ := h
      simp only [Prod.mk.injEq] at h
      obtain ⟨rfl, rfl, rfl⟩ := h
      have hle : j ≤ xs.length := by have := normIdx_lt hj; omega
      refine ⟨⟨.int (j : Int), rfl, rfl, ?_, ?_⟩, ?_⟩
      · simp only [applyOp, addItemJ, reduceIte, Option.some.injEq]
        rw [pyInsertPos_of_le hle]
      · have hlen : (listIns j v xs).length = xs.length + 1 := length_listIns v j xs
        simp only [applyOp, removeItemJ, String.reduceEq, if_false, reduceIte, hlen,
          normIdx_coe (by omega : j < xs.length + 1), Option.map_some',
          Option.some.injEq]
        rw [listDel_listIns v j xs hle]
      · simp only [WF] at hWF ⊢
        exact WFs_listIns hWF hv
  | .atom a => simp [proxyInsert] at h
  | .null => simp [proxyInsert] at h
  | .map kvs => simp [proxyInsert] at h
  | .jset vs => simp [proxyInsert] at h

theorem proxySetAdd_spec {cont c' : JValue} {p : JPath} {a : Atom}
    {rec : Option (Change × Change)} (hWF : WF cont = true)
    (h : proxySetAdd cont p a = some (c', rec)) :
    (rec = none ∧ c' = cont) ∨
      (∃ ch inv, rec = some (ch, inv) ∧ LocalInv cont c' p ch inv ∧ WF c' = true) := by
  match cont with
  | .jset vs =>
      simp only [proxySetAdd] at h
      by_cases hm : a ∈ vs
      · rw [if_pos hm] at h
        simp only [Option.some.injEq, Prod.mk.injEq] at h
        exact Or.inl ⟨h.2.symm, h.1.symm⟩
      · rw [if_neg hm] at h
        simp only [Option.some.injEq, Prod.mk.injEq] at h
        obtain ⟨rfl, rfl⟩ := h
        refine Or.inr ⟨_, _, rfl, ⟨a, rfl, rfl, ?_, ?_⟩, ?_⟩
        · simp [applyOp, addItemJ, hm]
        · simp only [applyOp, removeItemJ, String.reduceEq, if_false, reduceIte,
            removeA_insertA hm, Option.map_some', Option.some.injEq]
        · simp only [WF] at hWF ⊢
          exact chainA_insertA hWF hm
  | .atom a' => simp [proxySetAdd] at h
  | .null => simp [proxySetAdd] at h
  | .map kvs => simp [proxySetAdd] at h
  | .seq xs => simp [proxySetAdd] at h

theorem proxySetDiscard_spec {cont c' : JValue} {p : JPath} {a : Atom}
    {rec : Option (Change × Change)} (hWF : WF cont = true)
    (h : proxySetDiscard cont p a = some (c', rec)) :
    (rec = none ∧ c' = cont) ∨
      (∃ ch inv, rec = some (ch, inv) ∧ LocalInv cont c' p ch inv ∧ WF c' = true) := by
  match cont with
  | .jset vs =>
      simp only [proxySetDiscard] at h
      by_cases hm : a ∈ vs
      · rw [if_pos hm] at h
        rw [Option.map_eq_some'] at h
        obtain ⟨vs', hrm, h⟩ := h
        simp only [Prod.mk.injEq] at h
        obtain ⟨rfl, rfl⟩ := h
        refine Or.inr ⟨_, _, rfl, ⟨a, rfl, rfl, ?_, ?_⟩, ?_⟩
        · simp [applyOp, removeItemJ, hrm]
        · simp only [applyOp, addItemJ, reduceIte]
          rw [if_neg (not_mem_removeA hWF hrm)]
          rw [insertA_removeA hWF hrm]
        · simp only [WF] at hWF ⊢
          exact chainA_removeA hWF hrm
      · rw [if_neg hm] at h
        simp only [Option.some.injEq, Prod.mk.injEq] at h
        exact Or.inl ⟨h.2.symm, h.1.symm⟩
  | .atom a' => simp [proxySetDiscard] at h
  | .null => simp [proxySetDiscard] at h
  | .map kvs => simp [proxySetDiscard] at h
  | .seq xs => simp [proxySetDiscard] at h

/-- Master lemma for a single proxy mutation: the resulting model is
well-formed, and either the call was a recorded-nothing no-op that left the
model unchanged, or the recorded forward change replays the mutation and
the recorded inverse change rolls it back exactly. -/
theorem applyProxyOp_spec {m m' : JValue} {op : MutOp} {rec : Option (Change × Change)}
    (hWF : WF m = true) (hv : op.WFv = true)
    (h : applyProxyOp m op = some (m', rec)) :
    WF m' = true ∧
      ((rec = none ∧ m' = m) ∨
        (∃ ch inv, rec = some (ch, inv) ∧
          ch.applyChange m = some m' ∧ inv.applyChange m' = some m)) := by
  cases op with
  | setItem p key v =>
      simp only [applyProxyOp, Option.bind_eq_bind, Option.bind_eq_some] at h
      obtain ⟨cont, hg, r, hr, h⟩ := h
      rw [Option.map_eq_some'] at h
      obtain ⟨m₁, hs, h⟩ := h
      simp only [Prod.mk.injEq] at h
      obtain ⟨rfl, rfl⟩ := h
      obtain ⟨c₁, ch, inv⟩ := r
      have hcw : WF cont = true := WF_getNested hg hWF
      obtain ⟨hli, hc'⟩ := proxySetItem_spec hcw (by simpa [MutOp.WFv] using hv) hr
      have hac := applyChange_of_localInv hg hs hli
      exact ⟨WF_setNested hs hWF hc', Or.inr ⟨ch, inv, rfl, hac.1, hac.2⟩⟩
  | delItem p key =>
      simp only [applyProxyOp, Option.bind_eq_bind, Option.bind_eq_some] at h
      obtain ⟨cont, hg, r, hr, h⟩ := h
      rw [Option.map_eq_some'] at h
      obtain ⟨m₁, hs, h⟩ := h
      simp only [Prod.mk.injEq] at h
      obtain ⟨rfl, rfl⟩ := h
      obtain ⟨c₁, ch, inv⟩ := r
      have hcw : WF cont = true := WF_getNested hg hWF
      obtain ⟨hli, hc'⟩ := proxyDelItem_spec hcw hr
      have hac := applyChange_of_localInv hg hs hli
      exact ⟨WF_setNested hs hWF hc', Or.inr ⟨ch, inv, rfl, hac.1, hac.2⟩⟩
  | insert p i v =>
      simp only [applyProxyOp, Option.bind_eq_bind, Option.bind_eq_some] at h
      obtain ⟨cont, hg, r, hr, h⟩ := h
      rw [Option.map_eq_some'] at h
      obtain ⟨m₁, hs, h⟩ := h
      simp only [Prod.mk.injEq] at h
      obtain ⟨rfl, rfl⟩ := h
      obtain ⟨c₁, ch, inv⟩ := r
      have hcw : WF cont = true := WF_getNested hg hWF
      obtain ⟨hli, hc'⟩ := proxyInsert_spec hcw (by simpa [MutOp.WFv] using hv) hr
      have hac := applyChange_of_localInv hg hs hli
      exact ⟨WF_setNested hs hWF hc', Or.inr ⟨ch, inv, rfl, hac.1, hac.2⟩⟩
  | setAdd p a =>
      simp only [applyProxyOp, Option.bind_eq_bind, Option.bind_eq_some] at h
      obtain ⟨cont, hg, r, hr, h⟩ := h
      rw [Option.map_eq_some'] at h
      obtain ⟨m₁, hs, h⟩ := h
      simp only [Prod.mk.injEq] at h
      obtain ⟨rfl, rfl⟩ := h
      obtain ⟨c₁, rec⟩ := r
      have hcw : WF cont = true := WF_getNested hg hWF
      rcases proxySetAdd_spec hcw hr with ⟨hrec, hceq⟩ | ⟨ch, inv, hrec, hli, hc'⟩
      · rw [hceq] at hs
        have hm : setNested m p cont = some m := setNested_getNested_self hg
        rw [hm, Option.some.injEq] at hs
        exact ⟨hs ▸ hWF, Or.inl ⟨hrec, hs.symm⟩⟩
      · subst hrec
        have hac := applyChange_of_localInv hg hs hli
        exact ⟨WF_setNested hs hWF hc', Or.inr ⟨ch, inv, rfl, hac.1, hac.2⟩⟩
  | setDiscard p a =>
      simp only [applyProxyOp, Option.bind_eq_bind, Option.bind_eq_some] at h
      obtain ⟨cont, hg, r, hr, h⟩ := h
      rw [Option.map_eq_some'] at h
      obtain ⟨m₁, hs, h⟩ := h
      simp only [Prod.mk.injEq] at h
      obtain ⟨rfl, rfl⟩ := h
      obtain ⟨c₁, rec⟩ := r
      have hcw : WF cont = true := WF_getNested hg hWF
      rcases proxySetDiscard_spec hcw hr with ⟨hrec, hceq⟩ | ⟨ch, inv, hrec, hli, hc'⟩
      · rw [hceq] at hs
        have hm : setNested m p cont = some m := setNested_getNested_self hg
        rw [hm, Option.some.injEq] at hs
        exact ⟨hs ▸ hWF, Or.inl ⟨hrec, hs.symm⟩⟩
      · subst hrec
        have hac := applyChange_of_localInv hg hs hli
        exact ⟨WF_setNested hs hWF hc', Or.inr ⟨ch, inv, rfl, hac.1, hac.2⟩⟩

/-! ## The UndoManager state machine

Each operation returns the post-call state together with the raised error,
if any; in Python the state mutations performed before a raise persist, so
the state is returned in both cases. -/

/-- The info dict passed to `changeSet(**info)` / `newChangeSet(**info)`:
opaque metadata attached to an undo entry. -/
abbrev Info := List (String × String)

/-- An entry of `_currentChanges` and of the stacks:
`(info, changeSet, inverseChangeSet)`.  `_performUndo` applies the third
component and pushes the entry with the second and third swapped. -/
abbrev UndoEntry := Info × ChangeSet × ChangeSet

/-- Raised errors: `UndoManagerError`, a failed `assert`, and the
exceptions of the model/primitive layer (`IndexError`, `KeyError`,
`TypeError`, ...). -/
inductive UMErr where
  | undoManagerError (msg : String)
  | assertionError (msg : String)
  | modelError
  deriving DecidableEq

/-- `UndoManager.__init__`: undo stack, redo stack (append/pop at the end
of the list), the active-recording slot `_currentChanges`, and the model
root. -/
structure UMState where
  undoStack : List UndoEntry
  redoStack : List UndoEntry
  currentChanges : Option UndoEntry
  modelObject : Option JValue
  deriving DecidableEq

def UMState.initial : UMState := ⟨[], [], none, none⟩

/-- `setModel`: asserts the model was not set yet, then stores it (the
returned proxy is the root, path `[]`). -/
def UMState.setModel (st : UMState) (m : JValue) : UMState × Option UMErr :=
  match st.modelObject with
  | some _ => (st, some (.assertionError "model object can only be set once"))
  | none => ({ st with modelObject := some m }, none)

/-- `newChangeSet(**info)`: fails if a change set is already active, else
installs `(info, ChangeSet(), InverseChangeSet())`. -/
def UMState.newChangeSet (st : UMState) (info : Info) : UMState × Option UMErr :=
  match st.currentChanges with
  | some _ => (st, some (.undoManagerError "there already is an active change set"))
  | none =>
      ({ st with currentChanges := some (info, ⟨false, []⟩, ⟨true, []⟩) }, none)

/-- `pushCurrentChangeSet`: asserts a change set is active; pushes it to
the undo stack and clears the redo stack only when it is non-empty; always
clears the active slot. -/
def UMState.pushCurrentChangeSet (st : UMState) : UMState × Option UMErr :=
  match st.currentChanges with
  | none => (st, some (.assertionError "pushCurrentChangeSet without an active change set"))
  | some cur =>
      if cur.2.1.isEmpty then ({ st with currentChanges := none }, none)
      else
        ({ st with
            undoStack := st.undoStack ++ [cur]
            redoStack := []
            currentChanges := none }, none)

/-- `applyChanges(self._modelObject)` on the optional root: with no model
set, a non-empty iteration raises at its first change while an empty one
does nothing. -/
def applyCS (cs : ChangeSet) : Option JValue → Option JValue × Bool
  | some m => let r := cs.applyChanges m; (some r.1, r.2)
  | none => (none, cs.changes.isEmpty)

/-- `rollbackCurrentChangeSet`: replay the recorded inverse change set on
the model (in reverse order), then discard the current change set.  If the
replay itself raises, the slot is not cleared and the model keeps the
partial replay, as in the source. -/
def UMState.rollbackCurrentChangeSet (st : UMState) : UMState × Option UMErr :=
  match st.currentChanges with
  | none => (st, some .modelError)
  | some cur =>
      let r := applyCS cur.2.2 st.modelObject
      if r.2 then ({ st with modelObject := r.1, currentChanges := none }, none)
      else ({ st with modelObject := r.1 }, some .modelError)

/-- `undoInfo()`: the info of the top undo entry, or `None`. -/
def UMState.undoInfo (st : UMState) : Option Info := st.undoStack.getLast?.map (·.1)

/-- `redoInfo()`: the info of the top redo entry, or `None`. -/
def UMState.redoInfo (st : UMState) : Option Info := st.redoStack.getLast?.map (·.1)

/-- `_performUndo(popStack, pushStack)`: raise on an empty pop stack or an
active change set; pop the top entry, apply its third component to the
model, push the swapped entry onto the push side.  If the application
raises, the entry stays popped and is not pushed. -/
def performUndo (model : Option JValue) (cur : Option UndoEntry)
    (popStack pushStack : List UndoEntry) :
    (Option JValue × List UndoEntry × List UndoEntry) × Option UMErr :=
  match popStack.getLast? with
  | none =>
      ((model, popStack, pushStack), some (.undoManagerError "empty undo/redo stack"))
  | some e =>
      if cur.isSome then
        ((model, popStack, pushStack),
         some (.undoManagerError "can't undo/redo in a change set context"))
      else
        let r := applyCS e.2.2 model
        if r.2 then
          ((r.1, popStack.dropLast, pushStack ++ [(e.1, e.2.2, e.2.1)]), none)
        else
          ((r.1, popStack.dropLast, pushStack), some .modelError)

def UMState.undo (st : UMState) : UMState × Option UMErr :=
  let r := performUndo st.modelObject st.currentChanges st.undoStack st.redoStack
  ({ st with modelObject := r.1.1, undoStack := r.1.2.1, redoStack := r.1.2.2 }, r.2)

def UMState.redo (st : UMState) : UMState × Option UMErr :=
  let r := performUndo st.modelObject st.currentChanges st.redoStack st.undoStack
  ({ st with modelObject := r.1.1, redoStack := r.1.2.1, undoStack := r.1.2.2 }, r.2)

/-- One mutating proxy call on the manager's model: the proxy computes the
`(change, invChange)` pair from the pre-mutation state (raising on a bad
index / missing key / wrong container), `ensureCanAddChange` asserts an
active change set, the model mutates, `addChange` records the pair.  A
set-proxy no-op returns before the assert and records nothing.  Every
raising step precedes the mutation, so an error leaves the state
untouched. -/
def UMState.doMutOp (st : UMState) (op : MutOp) : UMState × Option UMErr :=
  match st.modelObject with
  | none => (st, some .modelError)
  | some m =>
      match applyProxyOp m op with
      | none => (st, some .modelError)
      | some (_, none) => (st, none)
      | some (m', some (c, inv)) =>
          match st.currentChanges with
          | none =>
              (st, some (.assertionError "can't add change, there is no active change set"))
          | some (info, cs, invSet) =>
              ({ st with
                  modelObject := some m'
                  currentChanges := some (info, cs.addChange c, invSet.addChange inv) },
               none)

/-- The body of a `with um.changeSet(...)` block: run the proxy mutations
in order, stopping at the first raise. -/
def runBody (st : UMState) : List MutOp → UMState × Option UMErr
  | [] => (st, none)
  | op :: ops =>
      let r := st.doMutOp op
      match r.2 with
      | none => runBody r.1 ops
      | some e => (r.1, some e)

/-- A whole `with um.changeSet(**info): ...` region
(`ChangeSetContextManager`): `newChangeSet` on entry (its failure skips
body and exit), the body, then `pushCurrentChangeSet` on normal exit or
`rollbackCurrentChangeSet` followed by re-raising the body's error. -/
def UMState.runChangeSetScope (st : UMState) (info : Info) (ops : List MutOp) :
    UMState × Option UMErr :=
  let r := st.newChangeSet info
  match r.2 with
  | some e => (r.1, some e)
  | none =>
      let rb := runBody r.1 ops
      match rb.2 with
      | none => rb.1.pushCurrentChangeSet
      | some e =>
          let rr := rb.1.rollbackCurrentChangeSet
          (rr.1, some (rr.2.getD e))

/-- A sequence of `undo()` (`true`) / `redo()` (`false`) calls, stopping at
the first error. -/
def runHist (st : UMState) : List Bool → UMState × Option UMErr
  | [] => (st, none)
  | b :: bs =>
      let r := if b then st.undo else st.redo
      match r.2 with
      | none => runHist r.1 bs
      | some e => (r.1, some e)

/-! ## Scope-level invariants -/

/-- While a change set is recording, the forward list replays the
scope-entry model into the current one and the reversed inverse list
replays the current model back; both survive every proxy mutation of the
body, whether it raises or not. -/
theorem runBody_inv {m₀ : JValue} :
    ∀ {ops : List MutOp} {st : UMState} {m : JValue} {info : Info}
      {fwd invl : List Change},
      st.modelObject = some m → WF m = true →
      st.currentChanges = some (info, ⟨false, fwd⟩, ⟨true, invl⟩) →
      applyList fwd m₀ = (m, true) →
      applyList invl.reverse m = (m₀, true) →
      (∀ op ∈ ops, op.WFv = true) →
      ∃ (m' : JValue) (fwd' invl' : List Change),
        (runBody st ops).1 =
          { st with modelObject := some m'
                    currentChanges := some (info, ⟨false, fwd'⟩, ⟨true, invl'⟩) } ∧
        WF m' = true ∧
        applyList fwd' m₀ = (m', true) ∧
        applyList invl'.reverse m' = (m₀, true) := by
  intro ops
  induction ops with
  | nil =>
      intro st m info fwd invl hm hWF hcur hfwd hinv _
      refine ⟨m, fwd, invl, ?_, hWF, hfwd, hinv⟩
      obtain ⟨us, rs, cc, mo⟩ := st
      simp only at hm hcur
      subst hm hcur
      rfl
  | cons op ops ih =>
      intro st m info fwd invl hm hWF hcur hfwd hinv hops
      obtain ⟨us, rs, cc, mo⟩ := st
      simp only at hm hcur
      subst hm hcur
      have hop : op.WFv = true := hops op (List.mem_cons_self op ops)
      have hops' : ∀ o ∈ ops, o.WFv = true :=
        fun o ho => hops o (List.mem_cons_of_mem _ ho)
      simp only [runBody, UMState.doMutOp]
      cases happ : applyProxyOp m op with
      | none => exact ⟨m, fwd, invl, rfl, hWF, hfwd, hinv⟩
      | some r =>
          obtain ⟨m₁, rec⟩ := r
          cases rec with
          | none => exact ih rfl hWF rfl hfwd hinv hops'
          | some ci =>
              obtain ⟨c, inv⟩ := ci
              obtain ⟨hWF₁, hdisj⟩ := applyProxyOp_spec hWF hop happ
              rcases hdisj with ⟨hne, _⟩ | ⟨ch, iv, heq, hfwd1, hinv1⟩
              · exact absurd hne (by simp)
              · simp only [Option.some.injEq, Prod.mk.injEq] at heq
                obtain ⟨rfl, rfl⟩ := heq
                have hfwd' : applyList (fwd ++ [c]) m₀ = (m₁, true) := by
                  rw [applyList_append]
                  simp [hfwd, applyList, hfwd1]
                have hinv' : applyList (invl ++ [inv]).reverse m₁ = (m₀, true) := by
                  rw [List.reverse_append]
                  simp only [List.reverse_singleton, List.singleton_append, applyList,
                    hinv1]
                  exact hinv
                exact @ih ⟨us, rs, _, _⟩ m₁ info _ _ rfl hWF₁ rfl hfwd' hinv' hops'

/-- A whole change-set scope either fails and leaves the manager state
exactly as it was (rollback restored the model, nothing was pushed, the
active slot is clear), or succeeds: an empty recorded set leaves the state
unchanged, and a non-empty one mutates the model to `m'`, pushes
`(info, changeSet, inverseChangeSet)` - whose forward list replays `m` to
`m'` and whose reversed inverse list replays `m'` back to `m` - and clears
the redo stack. -/
theorem runChangeSetScope_spec {st : UMState} {m : JValue} {info : Info}
    {ops : List MutOp}
    (hcur : st.currentChanges = none) (hm : st.modelObject = some m)
    (hWF : WF m = true) (hops : ∀ op ∈ ops, op.WFv = true) :
    (∃ e, (st.runChangeSetScope info ops).2 = some e ∧
       (st.runChangeSetScope info ops).1 = st) ∨
    ((st.runChangeSetScope info ops).2 = none ∧
      ∃ (m' : JValue) (fwd invl : List Change),
        WF m' = true ∧
        applyList fwd m = (m', true) ∧
        applyList invl.reverse m' = (m, true) ∧
        ((fwd = [] ∧ m' = m ∧ (st.runChangeSetScope info ops).1 = st) ∨
         (fwd ≠ [] ∧
           (st.runChangeSetScope info ops).1 =
             { st with modelObject := some m'
                       undoStack := st.undoStack ++ [(info, ⟨false, fwd⟩, ⟨true, invl⟩)]
                       redoStack := []
                       currentChanges := none }))) := by
  obtain ⟨us, rs, cc, mo⟩ := st
  simp only at hcur hm
  subst hcur hm
  obtain ⟨m', fwd', invl', hbody, hWF', hf', hi'⟩ :=
    @runBody_inv m ops ⟨us, rs, some (info, ⟨false, []⟩, ⟨true, []⟩), some m⟩
      m info [] [] rfl hWF rfl rfl rfl hops
  simp only [UMState.runChangeSetScope, UMState.newChangeSet]
  cases hrb : (runBody ⟨us, rs, some (info, ⟨false, []⟩, ⟨true, []⟩), some m⟩ ops).2 with
  | some e =>
      rw [hbody] at *
      simp only [UMState.rollbackCurrentChangeSet, applyCS, ChangeSet.applyChanges,
        if_true]
      rw [hi']
      simp only [if_true, Option.getD]
      exact Or.inl ⟨e, by trivial, by trivial⟩
  | none =>
      rw [hbody] at *
      simp only [UMState.pushCurrentChangeSet]
      by_cases hemp : fwd' = []
      · subst hemp
        have hm' : m' = m := by
          simp only [applyList] at hf'
          exact (Prod.mk.injEq .. ▸ hf').1.symm
        subst hm'
        simp only [ChangeSet.isEmpty, List.isEmpty_nil, if_true]
        exact Or.inr ⟨by trivial, m', [], invl', hWF', hf', hi',
          Or.inl ⟨rfl, rfl, by trivial⟩⟩
      · simp only [ChangeSet.isEmpty, List.isEmpty_eq_true, hemp, if_false]
        exact Or.inr ⟨by trivial, m', fwd', invl', hWF', hf', hi',
          Or.inr ⟨hemp, by trivial⟩⟩

/-! ## Single undo / redo steps -/

theorem undo_eq {st : UMState} {us : List UndoEntry} {e : UndoEntry}
    {m m₀ : JValue}
    (hcur : st.currentChanges = none) (hus : st.undoStack = us ++ [e])
    (hm : st.modelObject = some m) (happ : e.2.2.applyChanges m = (m₀, true)) :
    st.undo =
      ({ st with modelObject := some m₀
                 undoStack := us
                 redoStack := st.redoStack ++ [(e.1, e.2.2, e.2.1)] }, none) := by
  unfold UMState.undo performUndo
  rw [hus, List.getLast?_concat, hcur, hm]
  simp only [Option.isSome_none, Bool.false_eq_true, if_false, applyCS, happ,
    if_true, List.dropLast_concat]

theorem redo_eq {st : UMState} {rs : List UndoEntry} {e : UndoEntry}
    {m m₀ : JValue}
    (hcur : st.currentChanges = none) (hrs : st.redoStack = rs ++ [e])
    (hm : st.modelObject = some m) (happ : e.2.2.applyChanges m = (m₀, true)) :
    st.redo =
      ({ st with modelObject := some m₀
                 redoStack := rs
                 undoStack := st.undoStack ++ [(e.1, e.2.2, e.2.1)] }, none) := by
  unfold UMState.redo performUndo
  rw [hrs, List.getLast?_concat, hcur, hm]
  simp only [Option.isSome_none, Bool.false_eq_true, if_false, applyCS, happ,
    if_true, List.dropLast_concat]

theorem undo_err_empty {st : UMState} (h : st.undoStack = []) :
    st.undo = (st, some (.undoManagerError "empty undo/redo stack")) := by
  have hg : st.undoStack.getLast? = none := by rw [h]; rfl
  unfold UMState.undo performUndo
  rw [hg]

theorem redo_err_empty {st : UMState} (h : st.redoStack = []) :
    st.redo = (st, some (.undoManagerError "empty undo/redo stack")) := by
  have hg : st.redoStack.getLast? = none := by rw [h]; rfl
  unfold UMState.redo performUndo
  rw [hg]

theorem undo_err_active {st : UMState} {cur : UndoEntry}
    (hcur : st.currentChanges = some cur) :
    ∃ e, st.undo = (st, some e) := by
  have his : st.currentChanges.isSome = true := by rw [hcur]; rfl
  unfold UMState.undo performUndo
  cases hg : st.undoStack.getLast? with
  | none => exact ⟨_, rfl⟩
  | some e =>
      simp only [his, if_true]
      exact ⟨_, rfl⟩

theorem redo_err_active {st : UMState} {cur : UndoEntry}
    (hcur : st.currentChanges = some cur) :
    ∃ e, st.redo = (st, some e) := by
  have his : st.currentChanges.isSome = true := by rw [hcur]; rfl
  unfold UMState.redo performUndo
  cases hg : st.redoStack.getLast? with
  | none => exact ⟨_, rfl⟩
  | some e =>
      simp only [his, if_true]
      exact ⟨_, rfl⟩

/-! ## Coherent histories

A stack is coherent for the current model when its entries, from the top
down, replay cleanly: popping applies the entry's third component.  States
the manager can actually reach have coherent stacks (each pushed entry was
recorded against the model it applies to); the predicate is the hypothesis
under which `undo()`/`redo()` are guaranteed to succeed. -/

def chainOK (m : JValue) : List UndoEntry → Bool
  | [] => true
  | e :: rest =>
      let r := e.2.2.applyChanges m
      r.2 && decide (e.2.1.applyChanges r.1 = (m, true)) && WF r.1 &&
        chainOK r.1 rest

def UMState.histOK (st : UMState) : Bool :=
  match st.modelObject with
  | none => st.undoStack.isEmpty && st.redoStack.isEmpty
  | some m => chainOK m st.undoStack.reverse && chainOK m st.redoStack.reverse

theorem undo_ok_of_histOK {st : UMState} (hh : st.histOK = true)
    (hcur : st.currentChanges = none) (hne : st.undoStack ≠ []) :
    (st.undo).2 = none := by
  obtain ⟨us, e, hus⟩ := (List.eq_nil_or_concat' st.undoStack).resolve_left hne
  cases hmo : st.modelObject with
  | none =>
      rw [UMState.histOK, hmo, hus] at hh
      simp at hh
  | some m =>
      rw [UMState.histOK, hmo] at hh
      rw [Bool.and_eq_true] at hh
      have hch := hh.1
      rw [hus] at hch
      rw [List.reverse_concat] at hch
      simp only [chainOK, Bool.and_eq_true] at hch
      have happ : e.2.2.applyChanges m = ((e.2.2.applyChanges m).1, true) := by
        rw [Prod.mk.injEq]
        exact ⟨rfl, hch.1.1.1⟩
      rw [undo_eq hcur hus hmo happ]

theorem redo_ok_of_histOK {st : UMState} (hh : st.histOK = true)
    (hcur : st.currentChanges = none) (hne : st.redoStack ≠ []) :
    (st.redo).2 = none := by
  obtain ⟨rs, e, hrs⟩ := (List.eq_nil_or_concat' st.redoStack).resolve_left hne
  cases hmo : st.modelObject with
  | none =>
      rw [UMState.histOK, hmo, hrs] at hh
      simp at hh
  | some m =>
      rw [UMState.histOK, hmo] at hh
      rw [Bool.and_eq_true] at hh
      have hch := hh.2
      rw [hrs] at hch
      rw [List.reverse_concat] at hch
      simp only [chainOK, Bool.and_eq_true] at hch
      have happ : e.2.2.applyChanges m = ((e.2.2.applyChanges m).1, true) := by
        rw [Prod.mk.injEq]
        exact ⟨rfl, hch.1.1.1⟩
      rw [redo_eq hcur hrs hmo happ]

/-! ## Reachability

`good` bundles the invariant the public protocol maintains between calls:
no change set left active, a well-formed model, and coherent stacks.
`Reachable` closes the initial state under the public entry points
(`setModel`, a whole change-set scope, `undo`, `redo`), error outcomes
included; `histOK_of_reachable` shows `histOK` holds in every state the
protocol can produce, so the coherence hypothesis under which `undo()` and
`redo()` are proved to succeed is met in all of them. -/

def UMState.modelWF (st : UMState) : Bool :=
  match st.modelObject with
  | none => true
  | some m => WF m

def UMState.good (st : UMState) : Bool :=
  st.currentChanges.isNone && st.modelWF && st.histOK

inductive Reachable : UMState → Prop where
  | init : Reachable UMState.initial
  | set {st : UMState} {m : JValue} (h : Reachable st) (hWF : WF m = true) :
      Reachable (st.setModel m).1
  | scope {st : UMState} {info : Info} {ops : List MutOp} (h : Reachable st)
      (hops : ∀ op ∈ ops, op.WFv = true) :
      Reachable (st.runChangeSetScope info ops).1
  | undo {st : UMState} (h : Reachable st) : Reachable st.undo.1
  | redo {st : UMState} (h : Reachable st) : Reachable st.redo.1

theorem chainOK_cons {m m₀ : JValue} {e : UndoEntry} {rest : List UndoEntry}
    (h1 : e.2.2.applyChanges m = (m₀, true))
    (h2 : e.2.1.applyChanges m₀ = (m, true))
    (h3 : WF m₀ = true) (h4 : chainOK m₀ rest = true) :
    chainOK m (e :: rest) = true := by
  have hd : decide (e.2.1.applyChanges m₀ = (m, true)) = true := decide_eq_true h2
  simp only [chainOK]
  rw [h1]
  dsimp only
  rw [hd, h3, h4]
  rfl

theorem good_initial : UMState.initial.good = true := rfl

theorem good_setModel {st : UMState} {m : JValue} (hg : st.good = true)
    (hWF : WF m = true) : (st.setModel m).1.good = true := by
  obtain ⟨us, rs, cc, mo⟩ := st
  cases mo with
  | some m₀ => exact hg
  | none =>
      simp only [UMState.good, UMState.modelWF, UMState.histOK, Bool.and_eq_true,
        Option.isNone_iff_eq_none, List.isEmpty_iff] at hg
      obtain ⟨⟨hcc, -⟩, hus, hrs⟩ := hg
      subst hcc hus hrs
      simp [UMState.setModel, UMState.good, UMState.modelWF, UMState.histOK,
        chainOK, hWF]

theorem scope_state_noModel {st : UMState} {info : Info} {ops : List MutOp}
    (hmo : st.modelObject = none) (hcur : st.currentChanges = none) :
    (st.runChangeSetScope info ops).1 = st := by
  obtain ⟨us, rs, cc, mo⟩ := st
  simp only at hmo hcur
  subst hmo hcur
  cases ops with
  | nil => rfl
  | cons op ops => rfl

theorem good_scope {st : UMState} {info : Info} {ops : List MutOp}
    (hg : st.good = true) (hops : ∀ op ∈ ops, op.WFv = true) :
    (st.runChangeSetScope info ops).1.good = true := by
  obtain ⟨us, rs, cc, mo⟩ := st
  cases mo with
  | none =>
      have hcc : cc = none := by
        simp only [UMState.good, Bool.and_eq_true, Option.isNone_iff_eq_none] at hg
        exact hg.1.1
      rw [scope_state_noModel rfl hcc]
      exact hg
  | some m =>
      simp only [UMState.good, UMState.modelWF, UMState.histOK, Bool.and_eq_true,
        Option.isNone_iff_eq_none] at hg
      obtain ⟨⟨hcc, hWF⟩, hcu, hcr⟩ := hg
      subst hcc
      rcases @runChangeSetScope_spec ⟨us, rs, none, some m⟩ m info ops rfl rfl hWF hops
        with ⟨e, -, heq⟩ | ⟨-, m', fwd, invl, hWF', hf, hi, hcase⟩
      · rw [heq]
        simp only [UMState.good, UMState.modelWF, UMState.histOK, Bool.and_eq_true]
        exact ⟨⟨rfl, hWF⟩, hcu, hcr⟩
      · rcases hcase with ⟨-, -, heq⟩ | ⟨hne, heq⟩
        · rw [heq]
          simp only [UMState.good, UMState.modelWF, UMState.histOK, Bool.and_eq_true]
          exact ⟨⟨rfl, hWF⟩, hcu, hcr⟩
        · rw [heq]
          simp only [UMState.good, UMState.modelWF, UMState.histOK,
            List.reverse_concat, List.reverse_nil, Bool.and_eq_true]
          exact ⟨⟨rfl, hWF'⟩,
            @chainOK_cons m' m (info, ⟨false, fwd⟩, ⟨true, invl⟩) us.reverse hi hf
              hWF hcu, rfl⟩

theorem good_undo {st : UMState} (hg : st.good = true) : st.undo.1.good = true := by
  obtain ⟨us, rs, cc, mo⟩ := st
  have hcc : cc = none := by
    simp only [UMState.good, Bool.and_eq_true, Option.isNone_iff_eq_none] at hg
    exact hg.1.1
  subst hcc
  rcases List.eq_nil_or_concat' us with rfl | ⟨us', e, rfl⟩
  · rw [undo_err_empty rfl]
    exact hg
  · cases mo with
    | none => simp [UMState.good, UMState.histOK] at hg
    | some m =>
        simp only [UMState.good, UMState.modelWF, UMState.histOK, Bool.and_eq_true,
          Option.isNone_iff_eq_none] at hg
        obtain ⟨⟨-, hWFm⟩, hcu, hcr⟩ := hg
        rw [List.reverse_concat] at hcu
        simp only [chainOK, Bool.and_eq_true, decide_eq_true_eq] at hcu
        obtain ⟨⟨⟨h1, h2⟩, h3⟩, h4⟩ := hcu
        have happ : e.2.2.applyChanges m = ((e.2.2.applyChanges m).1, true) := by
          rw [Prod.mk.injEq]
          exact ⟨rfl, h1⟩
        rw [undo_eq rfl rfl rfl happ]
        simp only [UMState.good, UMState.modelWF, UMState.histOK,
          List.reverse_concat, Bool.and_eq_true]
        exact ⟨⟨rfl, h3⟩, h4,
          @chainOK_cons ((e.2.2.applyChanges m).1) m (e.1, e.2.2, e.2.1) rs.reverse
            h2 happ hWFm hcr⟩

theorem good_redo {st : UMState} (hg : st.good = true) : st.redo.1.good = true := by
  obtain ⟨us, rs, cc, mo⟩ := st
  have hcc : cc = none := by
    simp only [UMState.good, Bool.and_eq_true, Option.isNone_iff_eq_none] at hg
    exact hg.1.1
  subst hcc
  rcases List.eq_nil_or_concat' rs with rfl | ⟨rs', e, rfl⟩
  · rw [redo_err_empty rfl]
    exact hg
  · cases mo with
    | none => simp [UMState.good, UMState.histOK] at hg
    | some m =>
        simp only [UMState.good, UMState.modelWF, UMState.histOK, Bool.and_eq_true,
          Option.isNone_iff_eq_none] at hg
        obtain ⟨⟨-, hWFm⟩, hcu, hcr⟩ := hg
        rw [List.reverse_concat] at hcr
        simp only [chainOK, Bool.and_eq_true, decide_eq_true_eq] at hcr
        obtain ⟨⟨⟨h1, h2⟩, h3⟩, h4⟩ := hcr
        have happ : e.2.2.applyChanges m = ((e.2.2.applyChanges m).1, true) := by
          rw [Prod.mk.injEq]
          exact ⟨rfl, h1⟩
        rw [redo_eq rfl rfl rfl happ]
        simp only [UMState.good, UMState.modelWF, UMState.histOK,
          List.reverse_concat, Bool.and_eq_true]
        exact ⟨⟨rfl, h3⟩,
          @chainOK_cons ((e.2.2.applyChanges m).1) m (e.1, e.2.2, e.2.1) us.reverse
            h2 happ hWFm hcu, h4⟩

theorem reachable_good {st : UMState} (h : Reachable st) : st.good = true := by
  induction h with
  | init => rfl
  | set h hWF ih => exact good_setModel ih hWF
  | scope h hops ih => exact good_scope ih hops
  | undo h ih => exact good_undo ih
  | redo h ih => exact good_redo ih

theorem histOK_of_reachable {st : UMState} (h : Reachable st) :
    st.histOK = true := by
  have hg := reachable_good h
  simp only [UMState.good, Bool.and_eq_true] at hg
  exact hg.2

theorem undo_ok_of_reachable {st : UMState} (h : Reachable st)
    (hne : st.undoStack ≠ []) : (st.undo).2 = none := by
  have hg := reachable_good h
  simp only [UMState.good, Bool.and_eq_true, Option.isNone_iff_eq_none] at hg
  exact undo_ok_of_histOK hg.2 hg.1.1 hne

theorem redo_ok_of_reachable {st : UMState} (h : Reachable st)
    (hne : st.redoStack ≠ []) : (st.redo).2 = none := by
  have hg := reachable_good h
  simp only [UMState.good, Bool.and_eq_true, Option.isNone_iff_eq_none] at hg
  exact redo_ok_of_histOK hg.2 hg.1.1 hne

/-! ## The change observer (spec-modelled)

The source under verification carries only TODO placeholders at the commit
and undo/redo notification sites (`pushCurrentChangeSet`, `_performUndo`),
while the repository's test suite (`test_changeMonitor`) exercises a
`changeMonitor` constructor argument; the observer code itself is not in
the sources provided.  The definitions below are therefore modelled from
the spec, not from source code. -/

/-- Modelled from the spec: manager state extended with the log of
change-observer invocations (each logged element is the change set the
callback received).  The callback itself is rendered by a function
`monErr : ChangeSet → Option UMErr` giving its outcome on each set
(`some e` = the observer raised `e`). -/
structure MUMState where
  core : UMState
  monLog : List ChangeSet
  deriving DecidableEq

/-- Modelled from the spec: `pushCurrentChangeSet` notifying the observer.
On a non-empty recorded set: push, clear the redo stack, clear the slot,
then invoke the observer once with the forward change set; an observer
error propagates after the push, with no rollback.  An empty set commits
silently: the observer is not invoked. -/
def MUMState.pushCurrentChangeSet (monErr : ChangeSet → Option UMErr)
    (st : MUMState) : MUMState × Option UMErr :=
  match st.core.pushCurrentChangeSet with
  | (core', none) =>
      match st.core.currentChanges with
      | some cur =>
          if cur.2.1.isEmpty then ({ st with core := core' }, none)
          else (⟨core', st.monLog ++ [cur.2.1]⟩, monErr cur.2.1)
      | none => ({ st with core := core' }, none)
  | (core', some e) => ({ st with core := core' }, some e)

/-- Modelled from the spec: `undo()` notifying the observer once with the
applied (inverse) change set after a successful application; protocol or
application errors propagate without a notification. -/
def MUMState.undo (monErr : ChangeSet → Option UMErr) (st : MUMState) :
    MUMState × Option UMErr :=
  match st.core.undo with
  | (core', none) =>
      match st.core.undoStack.getLast? with
      | some e => (⟨core', st.monLog ++ [e.2.2]⟩, monErr e.2.2)
      | none => ({ st with core := core' }, none)
  | (core', some e) => ({ st with core := core' }, some e)

/-- Modelled from the spec: `redo()`, symmetric to `undo()`. -/
def MUMState.redo (monErr : ChangeSet → Option UMErr) (st : MUMState) :
    MUMState × Option UMErr :=
  match st.core.redo with
  | (core', none) =>
      match st.core.redoStack.getLast? with
      | some e => (⟨core', st.monLog ++ [e.2.2]⟩, monErr e.2.2)
      | none => ({ st with core := core' }, none)
  | (core', some e) => ({ st with core := core' }, some e)

/-! ## Claim theorems -/

/-- C1: for every model and every change set of proxy mutations (any
interleaved mix of add, replace and remove, at any nesting depth) committed
via `pushCurrentChangeSet`, one subsequent `undo()` restores the model to
its exact pre-change-set snapshot, and a following `redo()` restores the
exact post-commit state; applying an `InverseChangeSet` (which replays its
`Change` list in reverse order) immediately after its `ChangeSet` is a
state round-trip.  A scope all of whose mutations were set-proxy no-ops
records nothing and is not pushed (first disjunct); otherwise the committed
entry behaves as the claim states. -/
theorem changeSet_commit_undo_redo_roundtrip {st : UMState} {m : JValue}
    {info : Info} {ops : List MutOp}
    (hcur : st.currentChanges = none) (hm : st.modelObject = some m)
    (hWF : WF m = true) (hops : ∀ op ∈ ops, op.WFv = true)
    (hok : (st.runChangeSetScope info ops).2 = none) :
    (st.runChangeSetScope info ops).1 = st ∨
    (∃ (m' : JValue) (cs inv : ChangeSet),
      (st.runChangeSetScope info ops).1 =
        { st with modelObject := some m'
                  undoStack := st.undoStack ++ [(info, cs, inv)]
                  redoStack := []
                  currentChanges := none } ∧
      cs.applyChanges m = (m', true) ∧
      inv.applyChanges m' = (m, true) ∧
      inv.isInverse = true ∧
      (st.runChangeSetScope info ops).1.undo =
        ({ st with modelObject := some m
                   undoStack := st.undoStack
                   redoStack := [(info, inv, cs)]
                   currentChanges := none }, none) ∧
      ((st.runChangeSetScope info ops).1.undo).1.redo =
        ((st.runChangeSetScope info ops).1, none)) := by
  obtain ⟨us, rs, cc, mo⟩ := st
  simp only at hcur hm
  subst hcur hm
  rcases @runChangeSetScope_spec ⟨us, rs, none, some m⟩ m info ops
      rfl rfl hWF hops with
    ⟨e, he, _⟩ | ⟨_, m', fwd, invl, hWF', hf', hi', hcase⟩
  · rw [he] at hok
    exact Option.noConfusion hok
  · rcases hcase with ⟨hemp, hm', hstate⟩ | ⟨hne, hstate⟩
    · exact Or.inl hstate
    · have hcsapp : ChangeSet.applyChanges ⟨false, fwd⟩ m = (m', true) := by
        simpa [ChangeSet.applyChanges] using hf'
      have hinvapp : ChangeSet.applyChanges ⟨true, invl⟩ m' = (m, true) := by
        simpa [ChangeSet.applyChanges] using hi'
      have hundo :=
        @undo_eq ⟨us ++ [(info, ⟨false, fwd⟩, ⟨true, invl⟩)], [], none, some m'⟩
          us (info, ⟨false, fwd⟩, ⟨true, invl⟩) m' m rfl rfl rfl hinvapp
      have hredo :=
        @redo_eq ⟨us, [(info, ⟨true, invl⟩, ⟨false, fwd⟩)], none, some m⟩
          [] (info, ⟨true, invl⟩, ⟨false, fwd⟩) m m' rfl rfl rfl hcsapp
      refine Or.inr ⟨m', ⟨false, fwd⟩, ⟨true, invl⟩, hstate, hcsapp, hinvapp, rfl, ?_, ?_⟩
      · rw [hstate]
        exact hundo
      · rw [hstate]
        dsimp only
        rw [hundo]
        exact hredo

/-- The module docstring's model, `[1, 2, 3, {"a": 123}]`. -/
def exM : JValue :=
  .seq [.atom (.int 1), .atom (.int 2), .atom (.int 3),
        .map [(.str "a", .atom (.int 123))]]

def exSt : UMState := ⟨[], [], none, some exM⟩

def exInfo : Info := [("title", "replace list item")]

/-- `proxy[1] = 2000` from the module docstring. -/
def exOps : List MutOp := [.setItem [] (.int 1) (.atom (.int 2000))]

/-- Witness for C1: the docstring example, `model = [1, 2, 3, {"a": 123}]`
with `proxy[1] = 2000` committed in one change set. -/
theorem changeSet_commit_undo_redo_roundtrip_witness :
    (UMState.runChangeSetScope exSt exInfo exOps).1 = exSt ∨
    (∃ (m' : JValue) (cs inv : ChangeSet),
      (UMState.runChangeSetScope exSt exInfo exOps).1 =
        { exSt with modelObject := some m'
                    undoStack := exSt.undoStack ++ [(exInfo, cs, inv)]
                    redoStack := []
                    currentChanges := none } ∧
      cs.applyChanges exM = (m', true) ∧
      inv.applyChanges m' = (exM, true) ∧
      inv.isInverse = true ∧
      (UMState.runChangeSetScope exSt exInfo exOps).1.undo =
        ({ exSt with modelObject := some exM
                     undoStack := exSt.undoStack
                     redoStack := [(exInfo, inv, cs)]
                     currentChanges := none }, none) ∧
      ((UMState.runChangeSetScope exSt exInfo exOps).1.undo).1.redo =
        ((UMState.runChangeSetScope exSt exInfo exOps).1, none)) :=
  changeSet_commit_undo_redo_roundtrip rfl rfl (by decide) (by decide) (by decide)

/-- C2: if a proxy mutation inside an active change set raises, the failing
operation's pair is not recorded, the changes already recorded are rolled
back via their inverses in reverse order before the error propagates, the
set is discarded and never pushed: the whole manager state - model, undo
stack, redo stack, active slot - is exactly the pre-change-set state. -/
theorem changeSet_error_rolls_back {st : UMState} {m : JValue} {info : Info}
    {ops : List MutOp} {e : UMErr}
    (hcur : st.currentChanges = none) (hm : st.modelObject = some m)
    (hWF : WF m = true) (hops : ∀ op ∈ ops, op.WFv = true)
    (he : (st.runChangeSetScope info ops).2 = some e) :
    (st.runChangeSetScope info ops).1 = st := by
  rcases runChangeSetScope_spec hcur hm hWF hops with ⟨e', _, hst⟩ | ⟨hnone, _⟩
  · exact hst
  · rw [hnone] at he
    exact Option.noConfusion he

def exSt2 : UMState :=
  ⟨[], [], none, some (.seq [.atom (.int 0), .atom (.int 1), .atom (.int 2), .atom (.int 3)])⟩

/-- Two successful mutations (two inserts), then one that raises
(`del proxy[99]`, an `IndexError`). -/
def exOpsFail : List MutOp :=
  [.insert [] 2 (.atom (.str "a")), .insert [] 1 (.atom (.str "b")),
   .delItem [] (.int 99)]

/-- Witness for C2: after the failing third mutation propagates its error,
the state equals the pre-change-set state exactly. -/
theorem changeSet_error_rolls_back_witness :
    (UMState.runChangeSetScope exSt2 exInfo exOpsFail).1 = exSt2 :=
  changeSet_error_rolls_back (e := .modelError) rfl rfl (by decide) (by decide)
    (by decide)

/-- The index at which `_normalizeIndex(index, bias=1)` resolves an
in-range insert target: a negative index counts from the end. -/
def resolvedInsertIdx (i : Int) (len : Nat) : Nat :=
  (if i < 0 then i + len else i).toNat

/-- C3 counterexample: on the spec's own scenario model `[0, 1, 2, 3]`
(length 4), `insert(5, "c")` raises `IndexError` - it does not clamp the
index into `[0, L]` and append. -/
theorem insert_out_of_range_raises :
    applyProxyOp
      (.seq [.atom (.int 0), .atom (.int 1), .atom (.int 2), .atom (.int 3)])
      (.insert [] 5 (.atom (.str "c"))) = none := by decide

/-- C3 (amended): `UndoProxySequence.insert` resolves a negative index by
adding the length and then requires the resolved index to be in `[0, L]`
(`_normalizeIndex(index, bias=1)`), raising `IndexError` otherwise; every
index in `[-L, L]` succeeds, inserting the item at the resolved position
and recording an `add` change there with inverse `remove`. -/
theorem insert_normalizes_and_bounds (xs : List JValue) (p : JPath) (i : Int)
    (v : JValue) :
    (-(xs.length : Int) ≤ i ∧ i ≤ (xs.length : Int) →
      proxyInsert (.seq xs) p i v =
        some (.seq (listIns (resolvedInsertIdx i xs.length) v xs),
          ⟨"add", p ++ [.int (resolvedInsertIdx i xs.length : Int)], v⟩,
          ⟨"remove", p ++ [.int (resolvedInsertIdx i xs.length : Int)], .null⟩)) ∧
    (i < -(xs.length : Int) ∨ (xs.length : Int) < i →
      proxyInsert (.seq xs) p i v = none) := by
  constructor
  · intro ⟨h1, h2⟩
    have hn : normIdx i xs.length 1 = some (resolvedInsertIdx i xs.length) := by
      simp only [normIdx, resolvedInsertIdx]
      by_cases hneg : i < 0
      · rw [if_pos hneg]
        split
        · rfl
        · next hcond => exact absurd (by constructor <;> omega) hcond
      · rw [if_neg hneg]
        split
        · rfl
        · next hcond => exact absurd (by constructor <;> omega) hcond
    simp [proxyInsert, hn]
  · intro h
    have hn : normIdx i xs.length 1 = none := by
      simp only [normIdx]
      by_cases hneg : i < 0
      · rw [if_pos hneg]
        split
        · next hcond => exfalso; rcases h with h | h <;> omega
        · rfl
      · rw [if_neg hneg]
        split
        · next hcond => exfalso; rcases h with h | h <;> omega
        · rfl
    simp [proxyInsert, hn]

/-- Witness for C3's amended theorem: in a one-element list, `insert(-1, 7)`
resolves to position 0 and succeeds, while `insert(2, 7)` raises. -/
theorem insert_normalizes_and_bounds_witness :
    proxyInsert (.seq [.atom (.int 0)]) [] (-1) (.atom (.int 7)) =
      some (.seq (listIns (resolvedInsertIdx (-1) 1) (.atom (.int 7))
              [.atom (.int 0)]),
        ⟨"add", [.int (resolvedInsertIdx (-1) 1 : Int)], .atom (.int 7)⟩,
        ⟨"remove", [.int (resolvedInsertIdx (-1) 1 : Int)], .null⟩) ∧
    proxyInsert (.seq [.atom (.int 0)]) [] 2 (.atom (.int 7)) = none :=
  ⟨(insert_normalizes_and_bounds [.atom (.int 0)] [] (-1) (.atom (.int 7))).1
      (by constructor <;> decide),
   (insert_normalizes_and_bounds [.atom (.int 0)] [] 2 (.atom (.int 7))).2
      (by right; decide)⟩

/-- C5: every protocol misuse fails immediately with an error and leaves
the manager state unchanged - `newChangeSet` while a set is active, `undo`
or `redo` while a set is active, `undo`/`redo` on an empty stack, a second
`setModel` - and `undo`/`redo` succeed whenever the respective stack is
non-empty, no set is active, and the history is coherent (`histOK`, true of
every state the manager protocol can reach). -/
theorem protocol_misuse_fails_state_unchanged (st : UMState) (info : Info)
    (m₂ : JValue) :
    (∀ cur, st.currentChanges = some cur →
      st.newChangeSet info =
        (st, some (.undoManagerError "there already is an active change set")) ∧
      (∃ e, st.undo = (st, some e)) ∧
      (∃ e, st.redo = (st, some e))) ∧
    (st.undoStack = [] →
      st.undo = (st, some (.undoManagerError "empty undo/redo stack"))) ∧
    (st.redoStack = [] →
      st.redo = (st, some (.undoManagerError "empty undo/redo stack"))) ∧
    (∀ m₀, st.modelObject = some m₀ →
      st.setModel m₂ =
        (st, some (.assertionError "model object can only be set once"))) ∧
    (st.histOK = true → st.currentChanges = none →
      (st.undoStack ≠ [] → (st.undo).2 = none) ∧
      (st.redoStack ≠ [] → (st.redo).2 = none)) := by
  refine ⟨?_, ?_, ?_, ?_, ?_⟩
  · intro cur hcur
    refine ⟨?_, undo_err_active hcur, redo_err_active hcur⟩
    unfold UMState.newChangeSet
    rw [hcur]
  · exact undo_err_empty
  · exact redo_err_empty
  · intro m₀ hm₀
    unfold UMState.setModel
    rw [hm₀]
  · intro hh hcur
    exact ⟨undo_ok_of_histOK hh hcur, redo_ok_of_histOK hh hcur⟩

def exActive : UMState := ⟨[], [], some (exInfo, ⟨false, []⟩, ⟨true, []⟩), some exM⟩

/-- A state with a coherent one-entry history on each stack over the model
`{1}`. -/
def exHist : UMState :=
  ⟨[(exInfo, ⟨true, [⟨"add", [.int 1], .null⟩]⟩,
      ⟨false, [⟨"remove", [.int 1], .null⟩]⟩)],
   [(exInfo, ⟨true, [⟨"remove", [.int 2], .null⟩]⟩,
      ⟨false, [⟨"add", [.int 2], .null⟩]⟩)],
   none, some (.jset [.int 1])⟩

/-- Witness for C5 at concrete states: the misuses fail with the state
unchanged, and `undo`/`redo` succeed on the coherent state. -/
theorem protocol_misuse_fails_state_unchanged_witness :
    (exActive.newChangeSet exInfo =
      (exActive, some (.undoManagerError "there already is an active change set"))) ∧
    (∃ e, exActive.undo = (exActive, some e)) ∧
    (∃ e, exActive.redo = (exActive, some e)) ∧
    (UMState.initial.undo =
      (UMState.initial, some (.undoManagerError "empty undo/redo stack"))) ∧
    (UMState.initial.redo =
      (UMState.initial, some (.undoManagerError "empty undo/redo stack"))) ∧
    (exActive.setModel exM =
      (exActive, some (.assertionError "model object can only be set once"))) ∧
    (exHist.undo).2 = none ∧ (exHist.redo).2 = none := by
  have ha := protocol_misuse_fails_state_unchanged exActive exInfo exM
  have hi := protocol_misuse_fails_state_unchanged UMState.initial exInfo exM
  have hh := protocol_misuse_fails_state_unchanged exHist exInfo exM
  obtain ⟨ha1, _, _, ha4, _⟩ := ha
  obtain ⟨_, hi2, hi3, _, _⟩ := hi
  obtain ⟨_, _, _, _, hh5⟩ := hh
  have hact := ha1 (exInfo, ⟨false, []⟩, ⟨true, []⟩) rfl
  have hok := hh5 (by decide) rfl
  exact ⟨hact.1, hact.2.1, hact.2.2, hi2 rfl, hi3 rfl, ha4 exM rfl,
    hok.1 (by decide), hok.2 (by decide)⟩

/-- C6: a change set in which zero changes were recorded is never pushed:
`pushCurrentChangeSet` with an empty recorded set only clears the active
slot - undo and redo stacks are untouched - for every manager state with an
active empty change set. -/
theorem empty_changeSet_never_pushed (st : UMState) (info : Info)
    (cs inv : ChangeSet)
    (hcur : st.currentChanges = some (info, cs, inv)) (hemp : cs.changes = []) :
    st.pushCurrentChangeSet = ({ st with currentChanges := none }, none) := by
  unfold UMState.pushCurrentChangeSet
  rw [hcur]
  simp [ChangeSet.isEmpty, hemp]

/-- Witness for C6. -/
theorem empty_changeSet_never_pushed_witness :
    exActive.pushCurrentChangeSet =
      ({ exActive with currentChanges := none }, none) :=
  empty_changeSet_never_pushed exActive exInfo ⟨false, []⟩ ⟨true, []⟩ rfl rfl

/-- C7: pushing a change set containing at least one change appends it to
the undo stack and clears the redo stack, so a subsequent `redo()` fails
with an empty-stack error - for every manager state. -/
theorem push_nonempty_clears_redo (st : UMState) (info : Info)
    (cs inv : ChangeSet)
    (hcur : st.currentChanges = some (info, cs, inv)) (hne : cs.changes ≠ []) :
    st.pushCurrentChangeSet =
      ({ st with undoStack := st.undoStack ++ [(info, cs, inv)]
                 redoStack := []
                 currentChanges := none }, none) ∧
    (st.pushCurrentChangeSet).1.redo =
      ((st.pushCurrentChangeSet).1,
        some (.undoManagerError "empty undo/redo stack")) := by
  have hpush : st.pushCurrentChangeSet =
      ({ st with undoStack := st.undoStack ++ [(info, cs, inv)]
                 redoStack := []
                 currentChanges := none }, none) := by
    unfold UMState.pushCurrentChangeSet
    rw [hcur]
    simp [ChangeSet.isEmpty, hne]
  refine ⟨hpush, ?_⟩
  rw [hpush]
  exact redo_err_empty rfl

def exActiveRec : UMState :=
  ⟨[], [(exInfo, ⟨false, []⟩, ⟨true, []⟩)],
   some (exInfo, ⟨false, [⟨"add", [.int 0], .null⟩]⟩,
     ⟨true, [⟨"remove", [.int 0], .null⟩]⟩),
   some (.jset [.int 0])⟩

/-- Witness for C7: committing a non-empty set from a state with a stale
redo entry clears the redo stack and makes `redo()` fail. -/
theorem push_nonempty_clears_redo_witness :
    exActiveRec.pushCurrentChangeSet =
      ({ exActiveRec with
          undoStack := exActiveRec.undoStack ++
            [(exInfo, ⟨false, [⟨"add", [.int 0], .null⟩]⟩,
              ⟨true, [⟨"remove", [.int 0], .null⟩]⟩)]
          redoStack := []
          currentChanges := none }, none) ∧
    (exActiveRec.pushCurrentChangeSet).1.redo =
      ((exActiveRec.pushCurrentChangeSet).1,
        some (.undoManagerError "empty undo/redo stack")) :=
  push_nonempty_clears_redo exActiveRec exInfo
    ⟨false, [⟨"add", [.int 0], .null⟩]⟩ ⟨true, [⟨"remove", [.int 0], .null⟩]⟩
    rfl (by decide)

/-- C8: on a set proxy, `add` of an already-present member and `discard` of
an absent member record no change and leave the model and the whole manager
state untouched; otherwise `add` records an `add` change with inverse
`remove` and `discard` records a `remove` change with inverse `add`, the
pair is appended to the active change set, and the member is
added/removed. -/
theorem set_proxy_add_discard (st : UMState) (m : JValue) (p : JPath)
    (vs : List Atom) (a : Atom) (info : Info) (cs inv : ChangeSet)
    (hm : st.modelObject = some m) (hg : getNested m p = some (.jset vs))
    (hcur : st.currentChanges = some (info, cs, inv)) :
    (a ∈ vs → st.doMutOp (.setAdd p a) = (st, none)) ∧
    (a ∉ vs → ∃ m', setNested m p (.jset (insertA a vs)) = some m' ∧
      st.doMutOp (.setAdd p a) =
        ({ st with
            modelObject := some m'
            currentChanges := some (info,
              cs.addChange ⟨"add", p ++ [a], .null⟩,
              inv.addChange ⟨"remove", p ++ [a], .null⟩) }, none)) ∧
    (a ∉ vs → st.doMutOp (.setDiscard p a) = (st, none)) ∧
    (a ∈ vs → ∃ vs' m', removeA a vs = some vs' ∧
      setNested m p (.jset vs') = some m' ∧
      st.doMutOp (.setDiscard p a) =
        ({ st with
            modelObject := some m'
            currentChanges := some (info,
              cs.addChange ⟨"remove", p ++ [a], .null⟩,
              inv.addChange ⟨"add", p ++ [a], .null⟩) }, none)) := by
  refine ⟨?_, ?_, ?_, ?_⟩
  · intro hmem
    have happ : applyProxyOp m (.setAdd p a) = some (m, none) := by
      simp only [applyProxyOp]
      rw [hg]
      simp only [Option.bind_eq_bind, Option.some_bind, proxySetAdd,
        if_pos hmem]
      rw [setNested_getNested_self hg]
      rfl
    simp only [UMState.doMutOp, hm, happ]
  · intro hmem
    obtain ⟨m', hm'⟩ := Option.isSome_iff_exists.mp
      (setNested_isSome_of_getNested hg (.jset (insertA a vs)))
    refine ⟨m', hm', ?_⟩
    have happ : applyProxyOp m (.setAdd p a) =
        some (m', some (⟨"add", p ++ [a], .null⟩, ⟨"remove", p ++ [a], .null⟩)) := by
      simp only [applyProxyOp]
      rw [hg]
      simp only [Option.bind_eq_bind, Option.some_bind, proxySetAdd,
        if_neg hmem]
      rw [hm']
      rfl
    simp only [UMState.doMutOp, hm, happ, hcur]
  · intro hmem
    have happ : applyProxyOp m (.setDiscard p a) = some (m, none) := by
      simp only [applyProxyOp]
      rw [hg]
      simp only [Option.bind_eq_bind, Option.some_bind, proxySetDiscard,
        if_neg hmem]
      rw [setNested_getNested_self hg]
      rfl
    simp only [UMState.doMutOp, hm, happ]
  · intro hmem
    obtain ⟨vs', hvs'⟩ := Option.isSome_iff_exists.mp (removeA_isSome_of_mem hmem)
    obtain ⟨m', hm'⟩ := Option.isSome_iff_exists.mp
      (setNested_isSome_of_getNested hg (.jset vs'))
    refine ⟨vs', m', hvs', hm', ?_⟩
    have happ : applyProxyOp m (.setDiscard p a) =
        some (m', some (⟨"remove", p ++ [a], .null⟩, ⟨"add", p ++ [a], .null⟩)) := by
      simp only [applyProxyOp]
      rw [hg]
      simp only [Option.bind_eq_bind, Option.some_bind, proxySetDiscard,
        if_pos hmem, hvs', Option.map_some', Option.some_bind]
      rw [hm']
      rfl
    simp only [UMState.doMutOp, hm, happ, hcur]

def exSetSt : UMState :=
  ⟨[], [], some (exInfo, ⟨false, []⟩, ⟨true, []⟩), some (.jset [.int 1, .int 3])⟩

/-- Witness for C8 on the model `{1, 3}` with an active empty change set:
`add(1)` and `discard(2)` are silent no-ops; `add(2)` and `discard(1)`
mutate and record their pairs. -/
theorem set_proxy_add_discard_witness :
    (exSetSt.doMutOp (.setAdd [] (.int 1)) = (exSetSt, none)) ∧
    (∃ m', setNested (.jset [.int 1, .int 3]) [] (.jset (insertA (.int 2) [.int 1, .int 3])) = some m' ∧
      exSetSt.doMutOp (.setAdd [] (.int 2)) =
        ({ exSetSt with
            modelObject := some m'
            currentChanges := some (exInfo,
              ChangeSet.addChange ⟨false, []⟩ ⟨"add", [.int 2], .null⟩,
              ChangeSet.addChange ⟨true, []⟩ ⟨"remove", [.int 2], .null⟩) }, none)) ∧
    (exSetSt.doMutOp (.setDiscard [] (.int 2)) = (exSetSt, none)) ∧
    (∃ vs' m', removeA (.int 1) [.int 1, .int 3] = some vs' ∧
      setNested (.jset [.int 1, .int 3]) [] (.jset vs') = some m' ∧
      exSetSt.doMutOp (.setDiscard [] (.int 1)) =
        ({ exSetSt with
            modelObject := some m'
            currentChanges := some (exInfo,
              ChangeSet.addChange ⟨false, []⟩ ⟨"remove", [.int 1], .null⟩,
              ChangeSet.addChange ⟨true, []⟩ ⟨"add", [.int 1], .null⟩) }, none)) := by
  have h := set_proxy_add_discard exSetSt (.jset [.int 1, .int 3]) []
    [.int 1, .int 3] (.int 1) exInfo ⟨false, []⟩ ⟨true, []⟩ rfl rfl rfl
  have h2 := set_proxy_add_discard exSetSt (.jset [.int 1, .int 3]) []
    [.int 1, .int 3] (.int 2) exInfo ⟨false, []⟩ ⟨true, []⟩ rfl rfl rfl
  exact ⟨h.1 (by decide), h2.2.1 (by decide), h2.2.2.1 (by decide),
    h.2.2.2 (by decide)⟩

theorem applyProxyOp_none_rec {m m₁ : JValue} {op : MutOp}
    (h : applyProxyOp m op = some (m₁, none)) :
    ∃ p a vs, getNested m p = some (.jset vs) ∧
      ((op = .setAdd p a ∧ a ∈ vs) ∨ (op = .setDiscard p a ∧ a ∉ vs)) := by
  cases op with
  | setItem p key v =>
      simp only [applyProxyOp, Option.bind_eq_bind, Option.bind_eq_some] at h
      obtain ⟨cont, _, r, _, h⟩ := h
      rw [Option.map_eq_some'] at h
      obtain ⟨m', _, h⟩ := h
      simp at h
  | delItem p key =>
      simp only [applyProxyOp, Option.bind_eq_bind, Option.bind_eq_some] at h
      obtain ⟨cont, _, r, _, h⟩ := h
      rw [Option.map_eq_some'] at h
      obtain ⟨m', _, h⟩ := h
      simp at h
  | insert p i v =>
      simp only [applyProxyOp, Option.bind_eq_bind, Option.bind_eq_some] at h
      obtain ⟨cont, _, r, _, h⟩ := h
      rw [Option.map_eq_some'] at h
      obtain ⟨m', _, h⟩ := h
      simp at h
  | setAdd p a =>
      refine ⟨p, a, ?_⟩
      simp only [applyProxyOp, Option.bind_eq_bind, Option.bind_eq_some] at h
      obtain ⟨cont, hg, r, hr, h⟩ := h
      rw [Option.map_eq_some'] at h
      obtain ⟨m', -, h⟩ := h
      rw [Prod.mk.injEq] at h
      cases cont with
      | jset vs =>
          refine ⟨vs, hg, Or.inl ⟨rfl, ?_⟩⟩
          by_cases hmem : a ∈ vs
          · exact hmem
          · exfalso
            simp only [proxySetAdd, if_neg hmem, Option.some.injEq] at hr
            rw [← hr] at h
            exact absurd h.2 (by simp)
      | null => simp [proxySetAdd] at hr
      | atom a' => simp [proxySetAdd] at hr
      | seq xs => simp [proxySetAdd] at hr
      | map kvs => simp [proxySetAdd] at hr
  | setDiscard p a =>
      refine ⟨p, a, ?_⟩
      simp only [applyProxyOp, Option.bind_eq_bind, Option.bind_eq_some] at h
      obtain ⟨cont, hg, r, hr, h⟩ := h
      rw [Option.map_eq_some'] at h
      obtain ⟨m', -, h⟩ := h
      rw [Prod.mk.injEq] at h
      cases cont with
      | jset vs =>
          refine ⟨vs, hg, Or.inr ⟨rfl, ?_⟩⟩
          by_cases hmem : a ∈ vs
          · exfalso
            simp only [proxySetDiscard, if_pos hmem, Option.map_eq_some'] at hr
            obtain ⟨vs', -, hr⟩ := hr
            rw [← hr] at h
            exact absurd h.2 (by simp)
          · exact hmem
      | null => simp [proxySetDiscard] at hr
      | atom a' => simp [proxySetDiscard] at hr
      | seq xs => simp [proxySetDiscard] at hr
      | map kvs => simp [proxySetDiscard] at hr

theorem applyProxyOp_setAdd_noop {m : JValue} {p : JPath} {a : Atom}
    {vs : List Atom} (hg : getNested m p = some (.jset vs)) (hmem : a ∈ vs) :
    ∃ m', applyProxyOp m (.setAdd p a) = some (m', none) := by
  have hs := setNested_isSome_of_getNested hg (.jset vs)
  cases hsn : setNested m p (.jset vs) with
  | none => rw [hsn] at hs; simp at hs
  | some m' =>
      refine ⟨m', ?_⟩
      simp only [applyProxyOp, Option.bind_eq_bind]
      rw [hg]
      simp only [Option.some_bind, proxySetAdd]
      rw [if_pos hmem]
      simp only [Option.some_bind]
      rw [hsn]
      rfl

theorem applyProxyOp_setDiscard_noop {m : JValue} {p : JPath} {a : Atom}
    {vs : List Atom} (hg : getNested m p = some (.jset vs)) (hmem : a ∉ vs) :
    ∃ m', applyProxyOp m (.setDiscard p a) = some (m', none) := by
  have hs := setNested_isSome_of_getNested hg (.jset vs)
  cases hsn : setNested m p (.jset vs) with
  | none => rw [hsn] at hs; simp at hs
  | some m' =>
      refine ⟨m', ?_⟩
      simp only [applyProxyOp, Option.bind_eq_bind]
      rw [hg]
      simp only [Option.some_bind, proxySetDiscard]
      rw [if_neg hmem]
      simp only [Option.some_bind]
      rw [hsn]
      rfl

def exSet1 : UMState := ⟨[], [], none, some (.jset [.int 1])⟩

/-- C9 counterexample: `UndoProxySet.add` of an already-present member with
NO active change set returns silently instead of failing - the no-op early
return precedes `ensureCanAddChange` - so not every mutating proxy call
first asserts an active change set. -/
theorem set_add_noop_skips_assert :
    exSet1.doMutOp (.setAdd [] (.int 1)) = (exSet1, none) := by decide

/-- C9 (amended): every mutating proxy call made with no active change set
leaves the manager state (and so the model) unchanged, and succeeds exactly
when it is one of the two silent no-op paths - `set.add` of an
already-present member or `set.discard` of an absent member, which return
before the `ensureCanAddChange` assert and record nothing; every other
mutating call, including a recording `set.add`/`set.discard`, fails with an
error. -/
theorem mutation_without_active_changeSet (st : UMState) (op : MutOp)
    (hcur : st.currentChanges = none) :
    (st.doMutOp op).1 = st ∧
    ((st.doMutOp op).2 = none ↔
      ∃ m p a vs, st.modelObject = some m ∧ getNested m p = some (.jset vs) ∧
        ((op = .setAdd p a ∧ a ∈ vs) ∨ (op = .setDiscard p a ∧ a ∉ vs))) := by
  unfold UMState.doMutOp
  cases hmo : st.modelObject with
  | none =>
      refine ⟨rfl, ?_, ?_⟩
      · intro h
        exact absurd h (by simp)
      · rintro ⟨m, p, a, vs, hm, -⟩
        exact absurd hm (by simp)
  | some m =>
      dsimp only
      cases happ : applyProxyOp m op with
      | none =>
          refine ⟨rfl, ?_, ?_⟩
          · intro h
            exact absurd h (by simp)
          · rintro ⟨m₀, p, a, vs, hm, hg, hcase⟩
            rw [Option.some.injEq] at hm
            subst hm
            rcases hcase with ⟨rfl, hmem⟩ | ⟨rfl, hmem⟩
            · obtain ⟨m', h'⟩ := applyProxyOp_setAdd_noop hg hmem
              rw [happ] at h'
              exact absurd h' (by simp)
            · obtain ⟨m', h'⟩ := applyProxyOp_setDiscard_noop hg hmem
              rw [happ] at h'
              exact absurd h' (by simp)
      | some r =>
          obtain ⟨m₁, rec⟩ := r
          cases rec with
          | none =>
              refine ⟨rfl, ?_, ?_⟩
              · intro _
                obtain ⟨p, a, vs, hg, hcase⟩ := applyProxyOp_none_rec happ
                exact ⟨m, p, a, vs, rfl, hg, hcase⟩
              · intro _
                rfl
          | some ci =>
              obtain ⟨c, iv⟩ := ci
              rw [hcur]
              refine ⟨rfl, ?_, ?_⟩
              · intro h
                exact absurd h (by simp)
              · rintro ⟨m₀, p, a, vs, hm, hg, hcase⟩
                rw [Option.some.injEq] at hm
                subst hm
                rcases hcase with ⟨rfl, hmem⟩ | ⟨rfl, hmem⟩
                · obtain ⟨m', h'⟩ := applyProxyOp_setAdd_noop hg hmem
                  rw [happ, Option.some.injEq, Prod.mk.injEq] at h'
                  exact absurd h'.2 (by simp)
                · obtain ⟨m', h'⟩ := applyProxyOp_setDiscard_noop hg hmem
                  rw [happ, Option.some.injEq, Prod.mk.injEq] at h'
                  exact absurd h'.2 (by simp)

/-- Witness for C9's amended theorem: a `__setitem__` with no active change
set leaves the state unchanged, and its error is not `none` since the op is
neither of the two silent set no-op paths. -/
theorem mutation_without_active_changeSet_witness :
    (exSet1.doMutOp (.setItem [] (.int 0) .null)).1 = exSet1 ∧
    ((exSet1.doMutOp (.setItem [] (.int 0) .null)).2 = none ↔
      ∃ m p a vs, exSet1.modelObject = some m ∧
        getNested m p = some (.jset vs) ∧
        ((MutOp.setItem [] (.int 0) .null = .setAdd p a ∧ a ∈ vs) ∨
         (MutOp.setItem [] (.int 0) .null = .setDiscard p a ∧ a ∉ vs))) :=
  mutation_without_active_changeSet exSet1 (.setItem [] (.int 0) .null) rfl

theorem undo_eq_gen {st : UMState} {us : List UndoEntry} {e : UndoEntry}
    (hcur : st.currentChanges = none) (hus : st.undoStack = us ++ [e])
    (hok : (applyCS e.2.2 st.modelObject).2 = true) :
    st.undo =
      ({ st with modelObject := (applyCS e.2.2 st.modelObject).1
                 undoStack := us
                 redoStack := st.redoStack ++ [(e.1, e.2.2, e.2.1)] }, none) := by
  unfold UMState.undo performUndo
  rw [hus, List.getLast?_concat, hcur]
  simp only [Option.isSome_none, Bool.false_eq_true, if_false, hok, if_true,
    List.dropLast_concat]

theorem redo_eq_gen {st : UMState} {rs : List UndoEntry} {e : UndoEntry}
    (hcur : st.currentChanges = none) (hrs : st.redoStack = rs ++ [e])
    (hok : (applyCS e.2.2 st.modelObject).2 = true) :
    st.redo =
      ({ st with modelObject := (applyCS e.2.2 st.modelObject).1
                 redoStack := rs
                 undoStack := st.undoStack ++ [(e.1, e.2.2, e.2.1)] }, none) := by
  unfold UMState.redo performUndo
  rw [hrs, List.getLast?_concat, hcur]
  simp only [Option.isSome_none, Bool.false_eq_true, if_false, hok, if_true,
    List.dropLast_concat]

theorem undo_fail_apply {st : UMState} {us : List UndoEntry} {e : UndoEntry}
    (hcur : st.currentChanges = none) (hus : st.undoStack = us ++ [e])
    (hnok : (applyCS e.2.2 st.modelObject).2 = false) :
    (st.undo).2 = some .modelError := by
  unfold UMState.undo performUndo
  rw [hus, List.getLast?_concat, hcur]
  simp only [Option.isSome_none, Bool.false_eq_true, if_false, hnok]

theorem redo_fail_apply {st : UMState} {rs : List UndoEntry} {e : UndoEntry}
    (hcur : st.currentChanges = none) (hrs : st.redoStack = rs ++ [e])
    (hnok : (applyCS e.2.2 st.modelObject).2 = false) :
    (st.redo).2 = some .modelError := by
  unfold UMState.redo performUndo
  rw [hrs, List.getLast?_concat, hcur]
  simp only [Option.isSome_none, Bool.false_eq_true, if_false, hnok]

theorem undo_success_shape {st st' : UMState} (h : st.undo = (st', none)) :
    ∃ us e, st.undoStack = us ++ [e] ∧ st.currentChanges = none ∧
      st' = { st with modelObject := (applyCS e.2.2 st.modelObject).1
                      undoStack := us
                      redoStack := st.redoStack ++ [(e.1, e.2.2, e.2.1)] } := by
  rcases List.eq_nil_or_concat' st.undoStack with hnil | ⟨us, e, hcat⟩
  · rw [undo_err_empty hnil] at h
    exact absurd (congrArg Prod.snd h) (by simp)
  · cases hcs : st.currentChanges with
    | some cur =>
        obtain ⟨e', he'⟩ := undo_err_active hcs
        rw [he'] at h
        exact absurd (congrArg Prod.snd h) (by simp)
    | none =>
        cases hok : (applyCS e.2.2 st.modelObject).2 with
        | false =>
            have := undo_fail_apply hcs hcat hok
            rw [h] at this
            exact absurd this (by simp)
        | true =>
            have heq := undo_eq_gen hcs hcat hok
            rw [h, hcs] at heq
            refine ⟨us, e, hcat, rfl, ?_⟩
            have h1 := congrArg Prod.fst heq
            dsimp only at h1
            exact h1

theorem redo_success_shape {st st' : UMState} (h : st.redo = (st', none)) :
    ∃ rs e, st.redoStack = rs ++ [e] ∧ st.currentChanges = none ∧
      st' = { st with modelObject := (applyCS e.2.2 st.modelObject).1
                      redoStack := rs
                      undoStack := st.undoStack ++ [(e.1, e.2.2, e.2.1)] } := by
  rcases List.eq_nil_or_concat' st.redoStack with hnil | ⟨rs, e, hcat⟩
  · rw [redo_err_empty hnil] at h
    exact absurd (congrArg Prod.snd h) (by simp)
  · cases hcs : st.currentChanges with
    | some cur =>
        obtain ⟨e', he'⟩ := redo_err_active hcs
        rw [he'] at h
        exact absurd (congrArg Prod.snd h) (by simp)
    | none =>
        cases hok : (applyCS e.2.2 st.modelObject).2 with
        | false =>
            have := redo_fail_apply hcs hcat hok
            rw [h] at this
            exact absurd this (by simp)
        | true =>
            have heq := redo_eq_gen hcs hcat hok
            rw [h, hcs] at heq
            refine ⟨rs, e, hcat, rfl, ?_⟩
            have h1 := congrArg Prod.fst heq
            dsimp only at h1
            exact h1

theorem runHist_cons_ok {st : UMState} {b : Bool} {bs : List Bool}
    {r : UMState × Option UMErr}
    (hr : (if b then st.undo else st.redo) = r) (hok : r.2 = none) :
    runHist st (b :: bs) = runHist r.1 bs := by
  obtain ⟨r1, r2⟩ := r
  simp only at hok
  subst hok
  simp only [runHist, hr]

/-- C10: `undo()` and `redo()` conserve the total number of history
entries: each successful call moves exactly one entry between the stacks
with its forward and inverse change sets swapped and its info metadata
intact, the sum of the stack lengths is invariant under any sequence of
successful `undo()`/`redo()` calls, and `undo()` immediately followed by
`redo()` restores both stacks to their prior contents. -/
theorem undo_redo_conserve_history :
    (∀ st st' : UMState, st.undo = (st', none) →
      ∃ us info cs inv, st.undoStack = us ++ [(info, cs, inv)] ∧
        st'.undoStack = us ∧
        st'.redoStack = st.redoStack ++ [(info, inv, cs)] ∧
        st'.undoStack.length + st'.redoStack.length =
          st.undoStack.length + st.redoStack.length) ∧
    (∀ st st' : UMState, st.redo = (st', none) →
      ∃ rs info cs inv, st.redoStack = rs ++ [(info, cs, inv)] ∧
        st'.redoStack = rs ∧
        st'.undoStack = st.undoStack ++ [(info, inv, cs)] ∧
        st'.undoStack.length + st'.redoStack.length =
          st.undoStack.length + st.redoStack.length) ∧
    (∀ (st : UMState) (bs : List Bool), (runHist st bs).2 = none →
      (runHist st bs).1.undoStack.length + (runHist st bs).1.redoStack.length =
        st.undoStack.length + st.redoStack.length) ∧
    (∀ st st₁ st₂ : UMState, st.undo = (st₁, none) → st₁.redo = (st₂, none) →
      st₂.undoStack = st.undoStack ∧ st₂.redoStack = st.redoStack) := by
  have hu : ∀ st st' : UMState, st.undo = (st', none) →
      ∃ us info cs inv, st.undoStack = us ++ [(info, cs, inv)] ∧
        st'.undoStack = us ∧
        st'.redoStack = st.redoStack ++ [(info, inv, cs)] ∧
        st'.undoStack.length + st'.redoStack.length =
          st.undoStack.length + st.redoStack.length := by
    intro st st' h
    obtain ⟨us, e, hcat, _, hst'⟩ := undo_success_shape h
    obtain ⟨i, cs, iv⟩ := e
    subst hst'
    refine ⟨us, i, cs, iv, hcat, rfl, rfl, ?_⟩
    rw [hcat]
    simp only [List.length_append, List.length_cons, List.length_nil]
    omega
  have hb : ∀ st st' : UMState, st.redo = (st', none) →
      ∃ rs info cs inv, st.redoStack = rs ++ [(info, cs, inv)] ∧
        st'.redoStack = rs ∧
        st'.undoStack = st.undoStack ++ [(info, inv, cs)] ∧
        st'.undoStack.length + st'.redoStack.length =
          st.undoStack.length + st.redoStack.length := by
    intro st st' h
    obtain ⟨rs, e, hcat, _, hst'⟩ := redo_success_shape h
    obtain ⟨i, cs, iv⟩ := e
    subst hst'
    refine ⟨rs, i, cs, iv, hcat, rfl, rfl, ?_⟩
    rw [hcat]
    simp only [List.length_append, List.length_cons, List.length_nil]
    omega
  refine ⟨hu, hb, ?_, ?_⟩
  · intro st bs
    induction bs generalizing st with
    | nil => intro _; rfl
    | cons b bs ih =>
        intro h
        cases b with
        | true =>
            cases hs : (st.undo).2 with
            | some e =>
                have hrw : runHist st (true :: bs) = ((st.undo).1, some e) := by
                  simp only [runHist, if_true, hs]
                rw [hrw] at h
                exact absurd h (by simp)
            | none =>
                have hstep : st.undo = ((st.undo).1, none) := by rw [← hs]
                have hrw : runHist st (true :: bs) = runHist (st.undo).1 bs :=
                  runHist_cons_ok (r := ((st.undo).1, none))
                    (by rw [if_pos rfl]; exact hstep) rfl
                rw [hrw] at h ⊢
                obtain ⟨us, i, cs, iv, _, _, _, hsum⟩ := hu st (st.undo).1 hstep
                rw [ih _ h]
                exact hsum
        | false =>
            cases hs : (st.redo).2 with
            | some e =>
                have hrw : runHist st (false :: bs) = ((st.redo).1, some e) := by
                  simp only [runHist, Bool.false_eq_true, if_false, hs]
                rw [hrw] at h
                exact absurd h (by simp)
            | none =>
                have hstep : st.redo = ((st.redo).1, none) := by rw [← hs]
                have hrw : runHist st (false :: bs) = runHist (st.redo).1 bs :=
                  runHist_cons_ok (r := ((st.redo).1, none))
                    (by rw [if_neg (by simp)]; exact hstep) rfl
                rw [hrw] at h ⊢
                obtain ⟨rs, i, cs, iv, _, _, _, hsum⟩ := hb st (st.redo).1 hstep
                rw [ih _ h]
                exact hsum
  · intro st st₁ st₂ h1 h2
    obtain ⟨us, e, hcat, _, hst1⟩ := undo_success_shape h1
    obtain ⟨rs, e', hcat', _, hst2⟩ := redo_success_shape h2
    subst hst1
    dsimp only at hcat' hst2
    have he' : e' = (e.1, e.2.2, e.2.1) := by
      have hgl := congrArg List.getLast? hcat'
      rw [List.getLast?_concat, List.getLast?_concat] at hgl
      exact (Option.some.injEq _ _ ▸ hgl).symm
    have hrs : rs = st.redoStack := by
      have hdl := congrArg List.dropLast hcat'
      rw [List.dropLast_concat, List.dropLast_concat] at hdl
      exact hdl.symm
    subst hst2 he' hrs
    constructor
    · rw [hcat]
    · rfl

/-- Witness for C10 at a concrete coherent state with both stacks
non-empty: `undo()` succeeds and moves the top undo entry - change sets
swapped, info intact, length sum conserved - and an immediate `redo()`
restores both stacks exactly. -/
theorem undo_redo_conserve_history_witness :
    (∃ us info cs inv, exHist.undoStack = us ++ [(info, cs, inv)] ∧
        (exHist.undo).1.undoStack = us ∧
        (exHist.undo).1.redoStack = exHist.redoStack ++ [(info, inv, cs)] ∧
        (exHist.undo).1.undoStack.length + (exHist.undo).1.redoStack.length =
          exHist.undoStack.length + exHist.redoStack.length) ∧
    ((exHist.undo).1.redo).1.undoStack = exHist.undoStack ∧
    ((exHist.undo).1.redo).1.redoStack = exHist.redoStack :=
  ⟨undo_redo_conserve_history.1 exHist (exHist.undo).1 (by decide),
   undo_redo_conserve_history.2.2.2 exHist (exHist.undo).1
     ((exHist.undo).1.redo).1 (by decide) (by decide)⟩

/-- C4 (modelled from the spec - the observer code is absent from the
sources, see `MUMState`): the change-observer callback, when set, is
invoked exactly once per committed non-empty change set (with the forward
`ChangeSet`) and exactly once per successful `undo()`/`redo()` application
(with the applied set); it is not invoked for an empty commit or a failed
call; its error propagates uncaught and triggers no rollback - the push
and the stack move stand even when the observer raises. -/
theorem change_observer_notifications (monErr : ChangeSet → Option UMErr) :
    (∀ (st : MUMState) (info : Info) (cs inv : ChangeSet),
      st.core.currentChanges = some (info, cs, inv) → cs.changes ≠ [] →
      MUMState.pushCurrentChangeSet monErr st =
        (⟨{ st.core with
              undoStack := st.core.undoStack ++ [(info, cs, inv)]
              redoStack := []
              currentChanges := none },
          st.monLog ++ [cs]⟩, monErr cs)) ∧
    (∀ (st : MUMState) (info : Info) (cs inv : ChangeSet),
      st.core.currentChanges = some (info, cs, inv) → cs.changes = [] →
      MUMState.pushCurrentChangeSet monErr st =
        (⟨{ st.core with currentChanges := none }, st.monLog⟩, none)) ∧
    (∀ (st : MUMState) (core' : UMState) (us : List UndoEntry) (e : UndoEntry),
      st.core.undoStack = us ++ [e] → st.core.undo = (core', none) →
      MUMState.undo monErr st = (⟨core', st.monLog ++ [e.2.2]⟩, monErr e.2.2)) ∧
    (∀ (st : MUMState) (core' : UMState) (rs : List UndoEntry) (e : UndoEntry),
      st.core.redoStack = rs ++ [e] → st.core.redo = (core', none) →
      MUMState.redo monErr st = (⟨core', st.monLog ++ [e.2.2]⟩, monErr e.2.2)) ∧
    (∀ (st : MUMState) (core' : UMState) (e : UMErr),
      st.core.undo = (core', some e) →
      MUMState.undo monErr st = (⟨core', st.monLog⟩, some e)) := by
  refine ⟨?_, ?_, ?_, ?_, ?_⟩
  · intro st info cs inv hcur hne
    have hpush : st.core.pushCurrentChangeSet =
        ({ st.core with
            undoStack := st.core.undoStack ++ [(info, cs, inv)]
            redoStack := []
            currentChanges := none }, none) := by
      unfold UMState.pushCurrentChangeSet
      rw [hcur]
      simp [ChangeSet.isEmpty, hne]
    simp only [MUMState.pushCurrentChangeSet, hpush, hcur]
    simp [ChangeSet.isEmpty, hne]
  · intro st info cs inv hcur hemp
    have hpush : st.core.pushCurrentChangeSet =
        ({ st.core with currentChanges := none }, none) := by
      unfold UMState.pushCurrentChangeSet
      rw [hcur]
      simp [ChangeSet.isEmpty, hemp]
    simp only [MUMState.pushCurrentChangeSet, hpush, hcur]
    simp [ChangeSet.isEmpty, hemp]
  · intro st core' us e hus hcund
    have hg : st.core.undoStack.getLast? = some e := by
      rw [hus]
      exact List.getLast?_concat _
    simp only [MUMState.undo, hcund, hg]
  · intro st core' rs e hrs hcred
    have hg : st.core.redoStack.getLast? = some e := by
      rw [hrs]
      exact List.getLast?_concat _
    simp only [MUMState.redo, hcred, hg]
  · intro st core' e hcund
    simp only [MUMState.undo, hcund]

/-- Witness for C4: with the observer `fun _ => none`, a non-empty commit
logs exactly the forward set and a successful `undo()` logs exactly the
applied inverse set. -/
theorem change_observer_notifications_witness :
    MUMState.pushCurrentChangeSet (fun _ => none) ⟨exActiveRec, []⟩ =
      (⟨{ exActiveRec with
            undoStack := exActiveRec.undoStack ++
              [(exInfo, ⟨false, [⟨"add", [.int 0], .null⟩]⟩,
                ⟨true, [⟨"remove", [.int 0], .null⟩]⟩)]
            redoStack := []
            currentChanges := none },
        ([] : List ChangeSet) ++ [⟨false, [⟨"add", [.int 0], .null⟩]⟩]⟩, none) ∧
    MUMState.undo (fun _ => none) ⟨exHist, []⟩ =
      (⟨(exHist.undo).1,
        ([] : List ChangeSet) ++
          [(⟨false, [⟨"remove", [.int 1], .null⟩]⟩ : ChangeSet)]⟩, none) :=
  ⟨(change_observer_notifications (fun _ => none)).1 ⟨exActiveRec, []⟩ exInfo
      ⟨false, [⟨"add", [.int 0], .null⟩]⟩ ⟨true, [⟨"remove", [.int 0], .null⟩]⟩
      rfl (by decide),
   (change_observer_notifications (fun _ => none)).2.2.1 ⟨exHist, []⟩
      (exHist.undo).1 []
      (exInfo, ⟨true, [⟨"add", [.int 1], .null⟩]⟩,
        ⟨false, [⟨"remove", [.int 1], .null⟩]⟩)
      rfl (by decide)⟩

end Jundo
